import Mathlib

/-!
Shallow embedding of the kvfast storage engine (src/header.rs, src/database.rs,
src/protocol.rs) and proofs about it.

Bytes are modelled as `Nat` (values < 256 wherever the code produces them),
byte buffers as `List Nat`.  Rust machine integers (`u32`, `u64`, `usize`)
are modelled as `Nat`, with explicit `% 2 ^ 32` / `% 2 ^ 64` reductions at
the points where the code serialises them into fixed-width little-endian
form.  Fallible Rust code (`Option`, `io::Result`, panics) is modelled with
`Option` / `Except`, with a dedicated `panicked` outcome standing for a Rust
panic (out-of-range slice index, failed `assert!`, arithmetic underflow).

The minimal-perfect-hash library (`ptr_hash`) and its epserde serialisation
are external crates, consumed by the repository through the capability
contract of spec section 4.2: they appear here as parameters — a query
function `mphf : List Nat → Nat`, its serialised form `mphfBytes`, and a
deserialiser `deser` — with the contract's round-trip property taken as a
hypothesis where a theorem needs it.
-/

deriving instance DecidableEq for Except

/-- Little-endian byte decoding: `fromLE [b0, b1, ...] = b0 + 256*b1 + ...`,
mirroring `u32::from_le_bytes` / `u64::from_le_bytes`. -/
def fromLE (bytes : List Nat) : Nat :=
  bytes.foldr (fun b acc => b + 256 * acc) 0

/-- Little-endian encoding of `x` into `w` bytes, mirroring `to_le_bytes`
(the value is implicitly reduced mod `256 ^ w`, as in Rust). -/
def toLE (w x : Nat) : List Nat :=
  (List.range w).map (fun i => x / 256 ^ i % 256)

/-- Rust slice range indexing `&buf[a..b]`: defined when `a ≤ b ≤ buf.len()`,
a panic (`none`) otherwise. -/
def sliceL (l : List Nat) (a b : Nat) : Option (List Nat) :=
  if a ≤ b ∧ b ≤ l.length then some ((l.drop a).take (b - a)) else none

/-- Outcomes of header decoding.  The Rust code returns `Option`; each
`return None` site is mapped to the error the spec names for it
(`Truncated` for the length guard, `BadMagic` for the magic guard), and an
out-of-range slice index is a Rust panic, `panicked`. -/
inductive HeaderErr where
  | truncated
  | badMagic
  | panicked
deriving DecidableEq, Repr

/-- `DabaHeader` from src/header.rs: magic `"DABA"`, version (u32),
num_keys (u64), key_size (u64), values_start (usize). -/
structure DabaHeader where
  magic : List Nat
  version : Nat
  num_keys : Nat
  key_size : Nat
  values_start : Nat
deriving DecidableEq, Repr

/-- The four magic bytes `"DABA"`. -/
def dabaMagic : List Nat := [0x44, 0x41, 0x42, 0x41]

/-- The four magic bytes `"KIDX"`. -/
def kidxMagic : List Nat := [0x4B, 0x49, 0x44, 0x58]

/-- `DabaHeader::from_bytes`: rejects buffers shorter than 32 bytes, then
decodes the five little-endian fields from `bytes[0..32]` and rejects a
wrong magic. -/
def DabaHeader.from_bytes (bytes : List Nat) : Except HeaderErr DabaHeader :=
  if bytes.length < 32 then .error .truncated
  else
    let magic := (bytes.drop 0).take 4
    let version := fromLE ((bytes.drop 4).take 4)
    let num_keys := fromLE ((bytes.drop 8).take 8)
    let key_size := fromLE ((bytes.drop 16).take 8)
    let values_start := fromLE ((bytes.drop 24).take 8)
    if magic ≠ dabaMagic then .error .badMagic
    else .ok ⟨magic, version, num_keys, key_size, values_start⟩

/-- `DabaHeader::to_bytes`: 32 bytes, fields little-endian in declaration
order. -/
def DabaHeader.to_bytes (h : DabaHeader) : List Nat :=
  h.magic ++ (toLE 4 h.version ++ (toLE 8 h.num_keys ++
    (toLE 8 h.key_size ++ toLE 8 h.values_start)))

/-- `IndexHeader` from src/header.rs: magic `"KIDX"`, version (u32),
num_keys (u64), mphf_size (u64), keys_offset (u64), offsets_offset (u64). -/
structure IndexHeader where
  magic : List Nat
  version : Nat
  num_keys : Nat
  mphf_size : Nat
  keys_offset : Nat
  offsets_offset : Nat
deriving DecidableEq, Repr

/-- `IndexHeader::from_bytes`.  The source guards `bytes.len() < 36` (its
own comment computes the header size as 40) and then slices `bytes[32..40]`;
on a buffer of length 36..39 that slice is out of range and panics. -/
def IndexHeader.from_bytes (bytes : List Nat) : Except HeaderErr IndexHeader :=
  if bytes.length < 36 then .error .truncated
  else if bytes.length < 40 then .error .panicked
  else
    let magic := (bytes.drop 0).take 4
    let version := fromLE ((bytes.drop 4).take 4)
    let num_keys := fromLE ((bytes.drop 8).take 8)
    let mphf_size := fromLE ((bytes.drop 16).take 8)
    let keys_offset := fromLE ((bytes.drop 24).take 8)
    let offsets_offset := fromLE ((bytes.drop 32).take 8)
    if magic ≠ kidxMagic then .error .badMagic
    else .ok ⟨magic, version, num_keys, mphf_size, keys_offset, offsets_offset⟩

/-- `IndexHeader::to_bytes`: 40 bytes, fields little-endian in declaration
order. -/
def IndexHeader.to_bytes (h : IndexHeader) : List Nat :=
  h.magic ++ (toLE 4 h.version ++ (toLE 8 h.num_keys ++
    (toLE 8 h.mphf_size ++ (toLE 8 h.keys_offset ++ toLE 8 h.offsets_offset))))

/-! ### RESP protocol (src/protocol.rs)

Strings are modelled as UTF-8 byte lists.  `BufRead::read_line` reads raw
bytes up to and including the first `\n` (or to end of input) and fails
with an `InvalidData` error if they are not valid UTF-8; `read_exact`
fails with `UnexpectedEof` when not enough bytes remain. -/

/-- `RespValue` from src/protocol.rs, strings as byte lists. -/
inductive RespValue where
  | SimpleString (s : List Nat)
  | Error (s : List Nat)
  | Integer (i : Int)
  | BulkString (data : List Nat)
  | Array (items : List RespValue)
deriving BEq, Repr

/-- Split the input at the first `\n` (byte 10): returns the consumed bytes
(including the `\n`, or everything if none) and the remainder, as
`BufRead::read_line` consumes them. -/
def splitLine : List Nat → List Nat × List Nat
  | [] => ([], [])
  | b :: rest =>
      if b = 10 then ([10], rest)
      else
        let p := splitLine rest
        (b :: p.1, p.2)

/-- A UTF-8 continuation byte, `0x80..=0xBF`. -/
def isCont (b : Nat) : Bool := 0x80 ≤ b && b ≤ 0xBF

/-- UTF-8 validity of a byte sequence (the check `String::from_utf8`
performs inside `read_line`): ASCII, and 2- to 4-byte sequences excluding
overlong forms, surrogates and values above U+10FFFF. -/
def validUtf8 : List Nat → Bool
  | [] => true
  | b :: rest =>
      if b ≤ 0x7F then validUtf8 rest
      else
        match rest with
        | [] => false
        | c1 :: r1 =>
            if 0xC2 ≤ b && b ≤ 0xDF then isCont c1 && validUtf8 r1
            else
              match r1 with
              | [] => false
              | c2 :: r2 =>
                  if b = 0xE0 then
                    (0xA0 ≤ c1 && c1 ≤ 0xBF) && isCont c2 && validUtf8 r2
                  else if (0xE1 ≤ b && b ≤ 0xEC) || b = 0xEE || b = 0xEF then
                    isCont c1 && isCont c2 && validUtf8 r2
                  else if b = 0xED then
                    (0x80 ≤ c1 && c1 ≤ 0x9F) && isCont c2 && validUtf8 r2
                  else
                    match r2 with
                    | [] => false
                    | c3 :: r3 =>
                        if b = 0xF0 then
                          (0x90 ≤ c1 && c1 ≤ 0xBF) && isCont c2 && isCont c3 && validUtf8 r3
                        else if 0xF1 ≤ b && b ≤ 0xF3 then
                          isCont c1 && isCont c2 && isCont c3 && validUtf8 r3
                        else if b = 0xF4 then
                          (0x80 ≤ c1 && c1 ≤ 0x8F) && isCont c2 && isCont c3 && validUtf8 r3
                        else false

/-- `str::trim_end` restricted to ASCII whitespace (`\t \n \x0B \x0C \r ' '`).
Rust trims the full Unicode White_Space set; every input appearing in the
theorems below is ASCII, where the two notions coincide. -/
def trimEndAscii (l : List Nat) : List Nat :=
  (l.reverse.dropWhile (fun b => b = 9 || b = 10 || b = 11 || b = 12 || b = 13 || b = 32)).reverse

/-- Accumulate decimal digits; `none` on a non-digit byte, as
`i64::from_str` rejects any non-digit. -/
def decDigitsAux : List Nat → Nat → Option Nat
  | [], acc => some acc
  | b :: rest, acc =>
      if 48 ≤ b && b ≤ 57 then decDigitsAux rest (acc * 10 + (b - 48))
      else none

/-- `str::parse::<i64>`: optional sign, then one or more decimal digits,
nothing else; rejects values outside the `i64` range. -/
def parseI64 (bs : List Nat) : Option Int :=
  match bs with
  | [] => none
  | 43 :: rest =>
      match rest with
      | [] => none
      | _ => (decDigitsAux rest 0).bind
          (fun n => if n ≤ 2 ^ 63 - 1 then some (n : Int) else none)
  | 45 :: rest =>
      match rest with
      | [] => none
      | _ => (decDigitsAux rest 0).bind
          (fun n => if n ≤ 2 ^ 63 then some (-(n : Int)) else none)
  | _ => (decDigitsAux bs 0).bind
      (fun n => if n ≤ 2 ^ 63 - 1 then some (n : Int) else none)

/-- Errors surfaced by `parse_resp`: `UnexpectedEof` from `read_exact`,
`InvalidData` from `read_line` on bad UTF-8, the "Unknown RESP type"
error, and a Rust panic (`Vec::with_capacity` capacity overflow on a
negative array count cast to `usize`). -/
inductive RErr where
  | eof
  | invalidData
  | unknownType
  | panicked
deriving DecidableEq, Repr

/-- `read_line` on the modelled reader: consume up to and including the
first newline, failing on invalid UTF-8. -/
def readLineE (input : List Nat) : Except RErr (List Nat × List Nat) :=
  let p := splitLine input
  if validUtf8 p.1 then .ok p else .error .invalidData

/-- `read_exact` into an `n`-byte buffer: consumes exactly `n` bytes from
the reader, failing with `UnexpectedEof` when fewer remain. -/
def takeExact : Nat → List Nat → Except RErr (List Nat × List Nat)
  | 0, l => .ok ([], l)
  | _ + 1, [] => .error .eof
  | n + 1, b :: l =>
      match takeExact n l with
      | .error e => .error e
      | .ok (buf, rest) => .ok (b :: buf, rest)

/-- The `for _ in 0..count` loop of the `'*'` branch of `parse_resp`,
abstracted over the element parser `p`. -/
def parseMany (p : List Nat → Except RErr (RespValue × List Nat)) :
    Nat → List Nat → Except RErr (List RespValue × List Nat)
  | 0, input => .ok ([], input)
  | cnt + 1, input =>
      match p input with
      | .error e => .error e
      | .ok (v, rest) =>
          match parseMany p cnt rest with
          | .error e => .error e
          | .ok (vs, rest2) => .ok (v :: vs, rest2)

/-- `parse_resp` from src/protocol.rs on a byte-list reader.  `fuel` bounds
the recursion depth through nested arrays; every theorem below supplies
enough of it (each nesting level consumes at least one input byte). -/
def parseResp : Nat → List Nat → Except RErr (RespValue × List Nat)
  | 0, _ => .error .eof
  | _ + 1, [] => .error .eof
  | fuel + 1, b :: input =>
      if b = 43 then  -- '+'
        match readLineE input with
        | .error e => .error e
        | .ok (line, rest) => .ok (.SimpleString (trimEndAscii line), rest)
      else if b = 45 then  -- '-'
        match readLineE input with
        | .error e => .error e
        | .ok (line, rest) => .ok (.Error (trimEndAscii line), rest)
      else if b = 58 then  -- ':'
        match readLineE input with
        | .error e => .error e
        | .ok (line, rest) =>
            .ok (.Integer ((parseI64 (trimEndAscii line)).getD 0), rest)
      else if b = 36 then  -- '$'
        match readLineE input with
        | .error e => .error e
        | .ok (line, rest) =>
            let len := (parseI64 (trimEndAscii line)).getD (-1)
            if len < 0 then .ok (.BulkString [], rest)
            else
              match takeExact len.toNat rest with
              | .error e => .error e
              | .ok (buf, rest2) =>
                  match takeExact 2 rest2 with
                  | .error e => .error e
                  | .ok (_, rest3) => .ok (.BulkString buf, rest3)
      else if b = 42 then  -- '*'
        match readLineE input with
        | .error e => .error e
        | .ok (line, rest) =>
            let count := (parseI64 (trimEndAscii line)).getD 0
            if count < 0 then .error .panicked
            else
              match parseMany (parseResp fuel) count.toNat rest with
              | .error e => .error e
              | .ok (items, rest2) => .ok (.Array items, rest2)
      else .error .unknownType

/-- `parse_resp` entry point: the fuel `input.length + 1` dominates the
possible nesting depth, since each nesting level consumes at least one
byte. -/
def parse_resp (input : List Nat) : Except RErr (RespValue × List Nat) :=
  parseResp (input.length + 1) input

/-- Decimal digits of `n` (ASCII), as `write!("{}")` formats unsigned
integers. -/
def natDecAux : Nat → Nat → List Nat
  | 0, _ => []
  | fuel + 1, n => if n < 10 then [48 + n] else natDecAux fuel (n / 10) ++ [48 + n % 10]

/-- Decimal ASCII representation of a `Nat`. -/
def natDec (n : Nat) : List Nat := natDecAux (n + 1) n

/-- Decimal ASCII representation of an `Int`, with a leading `-` when
negative, as `write!("{}")` formats `i64`. -/
def intDec (i : Int) : List Nat :=
  if i < 0 then 45 :: natDec i.natAbs else natDec i.toNat

mutual

/-- `write_resp` from src/protocol.rs, producing the written bytes. -/
def write_resp : RespValue → List Nat
  | .SimpleString s => 43 :: (s ++ [13, 10])
  | .Error s => 45 :: (s ++ [13, 10])
  | .Integer i => 58 :: (intDec i ++ [13, 10])
  | .BulkString data => 36 :: (natDec data.length ++ [13, 10] ++ data ++ [13, 10])
  | .Array values => 42 :: (natDec values.length ++ [13, 10] ++ writeRespList values)

/-- The element loop of the `Array` arm of `write_resp`. -/
def writeRespList : List RespValue → List Nat
  | [] => []
  | v :: vs => write_resp v ++ writeRespList vs

end

/-! ### Database (src/database.rs)

The file contents are modelled as byte lists; `write_database` returns the
final contents of the data file and index file (`none` standing for the
`assert!` panic on a wrongly sized key, or an out-of-range write into the
`mphf_to_original` table).  The `ptr_hash` MPHF is the `mphf` parameter, its
epserde serialisation the `mphfBytes` parameter, and deserialisation at
`open` time the `deser` parameter. -/

/-- `KEY_SIZE` from src/database.rs. -/
def KEY_SIZE : Nat := 16

/-- The `mphf_to_original` loop: for each key (original index `i`),
`mphf_to_original[mphf.index(key)] = i`.  An index `≥ n` is an
out-of-range `Vec` write, a panic (`none`). -/
def fillPerm (mphf : List Nat → Nat) (n : Nat) :
    List (List Nat) → Nat → List Nat → Option (List Nat)
  | [], _, perm => some perm
  | k :: ks, i, perm =>
      if mphf k < n then fillPerm mphf n ks (i + 1) (perm.set (mphf k) i)
      else none

/-- The entry stored in perfect-hash slot `j`: `xs[mphf_to_original[j]]`. -/
def slotOf (perm : List Nat) (xs : List (List Nat)) (j : Nat) : List Nat :=
  xs.getD (perm.getD j 0) []

/-- The running `cursor` of the offsets-writing loop: element `j` is the
sum of the lengths preceding slot `j`, starting from `c`. -/
def offsetsFrom (c : Nat) : List Nat → List Nat
  | [] => []
  | l :: ls => c :: offsetsFrom (c + l) ls

/-- Value bytes in perfect-hash-slot order (the data file body). -/
def valuesSec (perm : List Nat) (vals : List (List Nat)) : List Nat :=
  ((List.range perm.length).map (slotOf perm vals)).flatten

/-- Keys in perfect-hash-slot order (the key section of the index file). -/
def keysSec (perm : List Nat) (ks : List (List Nat)) : List Nat :=
  ((List.range perm.length).map (slotOf perm ks)).flatten

/-- Per-slot value lengths in perfect-hash-slot order. -/
def lensOf (perm : List Nat) (vals : List (List Nat)) : List Nat :=
  (List.range perm.length).map (fun j => (slotOf perm vals j).length)

/-- The persisted offsets array: running prefix sums of the slot lengths,
starting at 0. -/
def offsOf (perm : List Nat) (vals : List (List Nat)) : List Nat :=
  offsetsFrom 0 (lensOf perm vals)

/-- The data-file header `write_database` patches in:
`{magic: "DABA", version, num_keys: n, key_size: 16, values_start: 32}`. -/
def mkDabaHeader (version n : Nat) : DabaHeader :=
  ⟨dabaMagic, version, n, KEY_SIZE, 32⟩

/-- The index-file header `write_database` writes:
`{magic: "KIDX", version: 1, num_keys: n, mphf_size, keys_offset: 40+mphf_size,
offsets_offset: keys_offset + n*KEY_SIZE}`. -/
def mkIndexHeader (n msz : Nat) : IndexHeader :=
  ⟨kidxMagic, 1, n, msz, 40 + msz, 40 + msz + n * KEY_SIZE⟩

/-- Final contents of the data file: header then values in slot order. -/
def mkDataF (version : Nat) (perm : List Nat) (vals : List (List Nat)) : List Nat :=
  (mkDabaHeader version perm.length).to_bytes ++ valuesSec perm vals

/-- Final contents of the index file: header, serialised MPHF, keys in slot
order, offsets in slot order (u64 little-endian each). -/
def mkIdxF (mphfBytes perm : List Nat) (ks vals : List (List Nat)) : List Nat :=
  (mkIndexHeader perm.length mphfBytes.length).to_bytes ++ mphfBytes ++
    keysSec perm ks ++ ((offsOf perm vals).map (toLE 8)).flatten

/-- `Database::write_database`.  `keys_iter.zip(values_iter)` truncates to
the shorter sequence; each zipped key must be exactly `KEY_SIZE` bytes
(`assert_eq!`, a panic — `none` — otherwise); values are laid out in the
order determined by the MPHF via the inverse permutation. -/
def write_database (mphf : List Nat → Nat) (mphfBytes : List Nat)
    (keys values : List (List Nat)) (version : Nat) :
    Option (List Nat × List Nat) :=
  let pairs := keys.zip values
  if pairs.all (fun p => p.1.length = KEY_SIZE) then
    let keys_vec := pairs.map Prod.fst
    let values_vec := pairs.map Prod.snd
    let n := keys_vec.length
    match fillPerm mphf n keys_vec 0 (List.replicate n 0) with
    | none => none
    | some perm =>
        some (mkDataF version perm values_vec, mkIdxF mphfBytes perm keys_vec values_vec)
  else none

/-- Read `cnt` chunks of `sz` bytes each from `f`, chunk `t` at
`start + t*sz` (the keys / offsets parsing loops of `Database::open`);
an out-of-range chunk is a panic (`none`). -/
def readChunks (f : List Nat) (start sz : Nat) : Nat → Nat → Option (List (List Nat))
  | _, 0 => some []
  | i, cnt + 1 =>
      match sliceL f (start + i * sz) (start + i * sz + sz) with
      | none => none
      | some c =>
          match readChunks f start sz (i + 1) cnt with
          | none => none
          | some rest => some (c :: rest)

/-- Error outcomes of `Database::open`: a panic (out-of-range slice of a
mapped file), the two "Invalid ... header" `InvalidData` errors, the key
count mismatch, and an MPHF deserialisation failure. -/
inductive OpenErr where
  | panicked
  | invalidDaba
  | invalidIndex
  | countMismatch
  | mphfDeserFail
deriving DecidableEq, Repr

/-- The in-memory `Database` handle: parsed data-file header, the mapped
data file, the offsets and keys arrays parsed from the index file, and the
deserialised MPHF query function. -/
structure Database where
  header : DabaHeader
  mmap_data : List Nat
  offsets : List Nat
  keys : List (List Nat)
  mphf : List Nat → Nat

/-- `Database::open` on the two file contents. -/
def openDb (deser : List Nat → Option (List Nat → Nat))
    (dataF idxF : List Nat) : Except OpenErr Database :=
  match sliceL dataF 0 32 with
  | none => .error .panicked
  | some hdrBytes =>
      match DabaHeader.from_bytes hdrBytes with
      | .error _ => .error .invalidDaba
      | .ok header =>
          let num_keys := header.num_keys
          match sliceL idxF 0 40 with
          | none => .error .panicked
          | some ihdrBytes =>
              match IndexHeader.from_bytes ihdrBytes with
              | .error _ => .error .invalidIndex
              | .ok index_header =>
                  if index_header.num_keys ≠ header.num_keys then .error .countMismatch
                  else
                    match sliceL idxF 40 (40 + index_header.mphf_size) with
                    | none => .error .panicked
                    | some mphfBytes =>
                        match deser mphfBytes with
                        | none => .error .mphfDeserFail
                        | some mphf =>
                            match readChunks idxF index_header.keys_offset KEY_SIZE 0 num_keys with
                            | none => .error .panicked
                            | some keys =>
                                match readChunks idxF index_header.offsets_offset 8 0 num_keys with
                                | none => .error .panicked
                                | some offsetChunks =>
                                    .ok ⟨header, dataF, offsetChunks.map fromLE, keys, mphf⟩

/-- `Database::get`.  The outer `Option` distinguishes a Rust panic
(`none`: out-of-range `offsets[idx]`, underflowing
`mmap_data.len() - values_start`, or an invalid slice range) from a normal
return (`some none` = `None`, `some (some v)` = `Some(v)`). -/
def Database.get (db : Database) (key : List Nat) : Option (Option (List Nat)) :=
  let idx := db.mphf key
  if idx ≥ db.keys.length then some none
  else if db.keys.getD idx [] ≠ key then some none
  else
    match db.offsets.get? idx with
    | none => none
    | some start =>
        match (match db.offsets.get? (idx + 1) with
               | some v => some v
               | none =>
                   if db.header.values_start ≤ db.mmap_data.length
                   then some (db.mmap_data.length - db.header.values_start)
                   else none) with
        | none => none
        | some endv =>
            let a := db.header.values_start + start
            let b := db.header.values_start + endv
            if a ≤ b ∧ b ≤ db.mmap_data.length
            then some (some ((db.mmap_data.drop a).take (b - a)))
            else none

/-- Modelled from the spec: the value range of section 4.5's `get`
description, steps 1-4, with its stated `end` formula — `end = offsets[id+1]`
when `id+1 < n`, else `data_file_length - values_start - offsets[id]` — and
step 5's returned byte range `[values_start+start, values_start+end)`.
Used only to compare the spec's wording against the code's `get`. -/
def getSpecC3 (db : Database) (key : List Nat) : Option (List Nat) :=
  let idx := db.mphf key
  if idx ≥ db.keys.length then none
  else if db.keys.getD idx [] ≠ key then none
  else
    let start := db.offsets.getD idx 0
    let endv :=
      if idx + 1 < db.keys.length then db.offsets.getD (idx + 1) 0
      else db.mmap_data.length - db.header.values_start - db.offsets.getD idx 0
    some ((db.mmap_data.drop (db.header.values_start + start)).take
      ((db.header.values_start + endv) - (db.header.values_start + start)))

/-- The value range description of spec section 4.5 with the `end` formula
amended to what the code computes: `end = offsets[id+1]` when `id+1 < n`,
else `data_file_length - values_start`; the returned bytes are
`[values_start+start, values_start+end)`. -/
def getSpecC3Fixed (db : Database) (key : List Nat) : Option (List Nat) :=
  let idx := db.mphf key
  if idx ≥ db.keys.length then none
  else if db.keys.getD idx [] ≠ key then none
  else
    let start := db.offsets.getD idx 0
    let endv :=
      if idx + 1 < db.keys.length then db.offsets.getD (idx + 1) 0
      else db.mmap_data.length - db.header.values_start
    some ((db.mmap_data.drop (db.header.values_start + start)).take
      ((db.header.values_start + endv) - (db.header.values_start + start)))

/-! ### A concrete two-entry database used at concrete inputs

Keys `"aaaaaaaaaaaaaaaa"` and `"bbbbbbbbbbbbbbbb"` with values `"hello"` and
`"bbb"`, built with a perfect hash sending the first key to id 0 and the
second to id 1, so the second key owns the last id. -/

def exK0 : List Nat := List.replicate 16 97

def exK1 : List Nat := List.replicate 16 98

def exVal0 : List Nat := [104, 101, 108, 108, 111]

def exVal1 : List Nat := [98, 98, 98]

def exMphf (k : List Nat) : Nat := if k = exK1 then 1 else 0

def exDeser (_ : List Nat) : Option (List Nat → Nat) := some exMphf

def exFiles : List Nat × List Nat :=
  (write_database exMphf [] [exK0, exK1] [exVal0, exVal1] 1).getD ([], [])

def exDb : Database :=
  match openDb exDeser exFiles.1 exFiles.2 with
  | .ok db => db
  | .error _ => ⟨⟨[], 0, 0, 0, 0⟩, [], [], [], fun _ => 0⟩

/-- A one-entry database's ingredients: key `"aaaaaaaaaaaaaaaa"`, value
`"hi"`, the constant-0 hash. -/
def exMphf1 (_ : List Nat) : Nat := 0

def exDeser1 (_ : List Nat) : Option (List Nat → Nat) := some exMphf1

/-! ### Basic lemmas about the byte utilities -/

theorem length_toLE (w x : Nat) : (toLE w x).length = w := by
  simp [toLE]

theorem toLE_succ (w x : Nat) :
    toLE (w + 1) x = x % 256 :: toLE w (x / 256) := by
  simp only [toLE, List.range_succ_eq_map, List.map_cons, List.map_map]
  refine congrArg₂ List.cons ?_ ?_
  · simp
  · apply List.map_congr_left
    intro i _
    simp only [Function.comp_apply]
    show x / 256 ^ (i + 1) % 256 = x / 256 / 256 ^ i % 256
    rw [Nat.div_div_eq_div_mul, Nat.pow_succ, Nat.mul_comm 256 (256 ^ i)]

theorem fromLE_cons (b : Nat) (bs : List Nat) :
    fromLE (b :: bs) = b + 256 * fromLE bs := by
  simp [fromLE]

theorem fromLE_toLE (w x : Nat) : fromLE (toLE w x) = x % 256 ^ w := by
  induction w generalizing x with
  | zero => simp [toLE, fromLE, Nat.mod_one]
  | succ w ih =>
      rw [toLE_succ, fromLE_cons, ih]
      rw [Nat.pow_succ, Nat.mul_comm (256 ^ w) 256, Nat.mod_mul]

theorem fromLE_toLE_of_lt {w x : Nat} (h : x < 256 ^ w) :
    fromLE (toLE w x) = x := by
  rw [fromLE_toLE, Nat.mod_eq_of_lt h]

theorem daba_roundtrip (h : DabaHeader) (hm : h.magic = dabaMagic)
    (hv : h.version < 2 ^ 32) (hk : h.num_keys < 2 ^ 64)
    (hks : h.key_size < 2 ^ 64) (hvs : h.values_start < 2 ^ 64) :
    DabaHeader.from_bytes h.to_bytes = .ok h := by
  have hml : h.magic.length = 4 := by rw [hm]; rfl
  have hlen : h.to_bytes.length = 32 := by
    simp [DabaHeader.to_bytes, length_toLE, hml]
  have d4 : h.to_bytes.drop 4 =
      toLE 4 h.version ++ (toLE 8 h.num_keys ++ (toLE 8 h.key_size ++ toLE 8 h.values_start)) := by
    show (h.magic ++ _).drop 4 = _
    rw [List.drop_left' hml]
  have d8 : h.to_bytes.drop 8 =
      toLE 8 h.num_keys ++ (toLE 8 h.key_size ++ toLE 8 h.values_start) := by
    have hd : (h.to_bytes.drop 4).drop 4 = h.to_bytes.drop 8 := by
      rw [List.drop_drop]
    rw [← hd, d4, List.drop_left' (length_toLE 4 _)]
  have d16 : h.to_bytes.drop 16 = toLE 8 h.key_size ++ toLE 8 h.values_start := by
    have hd : (h.to_bytes.drop 8).drop 8 = h.to_bytes.drop 16 := by
      rw [List.drop_drop]
    rw [← hd, d8, List.drop_left' (length_toLE 8 _)]
  have d24 : h.to_bytes.drop 24 = toLE 8 h.values_start := by
    have hd : (h.to_bytes.drop 16).drop 8 = h.to_bytes.drop 24 := by
      rw [List.drop_drop]
    rw [← hd, d16, List.drop_left' (length_toLE 8 _)]
  have e0 : (h.to_bytes.drop 0).take 4 = h.magic := by
    rw [List.drop_zero]
    show (h.magic ++ _).take 4 = _
    exact List.take_left' hml
  have e1 : (h.to_bytes.drop 4).take 4 = toLE 4 h.version := by
    rw [d4, List.take_left' (length_toLE 4 _)]
  have e2 : (h.to_bytes.drop 8).take 8 = toLE 8 h.num_keys := by
    rw [d8, List.take_left' (length_toLE 8 _)]
  have e3 : (h.to_bytes.drop 16).take 8 = toLE 8 h.key_size := by
    rw [d16, List.take_left' (length_toLE 8 _)]
  have e4 : (h.to_bytes.drop 24).take 8 = toLE 8 h.values_start := by
    rw [d24]
    exact List.take_of_length_le (le_of_eq (length_toLE 8 _))
  have p32 : (256 : Nat) ^ 4 = 2 ^ 32 := by norm_num
  have p64 : (256 : Nat) ^ 8 = 2 ^ 64 := by norm_num
  have hv' : h.version < 256 ^ 4 := by rw [p32]; exact hv
  have hk' : h.num_keys < 256 ^ 8 := by rw [p64]; exact hk
  have hks' : h.key_size < 256 ^ 8 := by rw [p64]; exact hks
  have hvs' : h.values_start < 256 ^ 8 := by rw [p64]; exact hvs
  simp only [DabaHeader.from_bytes, hlen, Nat.lt_irrefl, if_false, e0, e1, e2, e3, e4,
    fromLE_toLE_of_lt hv', fromLE_toLE_of_lt hk', fromLE_toLE_of_lt hks',
    fromLE_toLE_of_lt hvs', hm, ne_eq, not_true_eq_false]
  rw [← hm]

theorem index_roundtrip (h : IndexHeader) (hm : h.magic = kidxMagic)
    (hv : h.version < 2 ^ 32) (hk : h.num_keys < 2 ^ 64)
    (hms : h.mphf_size < 2 ^ 64) (hko : h.keys_offset < 2 ^ 64)
    (hoo : h.offsets_offset < 2 ^ 64) :
    IndexHeader.from_bytes h.to_bytes = .ok h := by
  have hml : h.magic.length = 4 := by rw [hm]; rfl
  have hlen : h.to_bytes.length = 40 := by
    simp [IndexHeader.to_bytes, length_toLE, hml]
  have d4 : h.to_bytes.drop 4 =
      toLE 4 h.version ++ (toLE 8 h.num_keys ++ (toLE 8 h.mphf_size ++
        (toLE 8 h.keys_offset ++ toLE 8 h.offsets_offset))) := by
    show (h.magic ++ _).drop 4 = _
    rw [List.drop_left' hml]
  have d8 : h.to_bytes.drop 8 =
      toLE 8 h.num_keys ++ (toLE 8 h.mphf_size ++
        (toLE 8 h.keys_offset ++ toLE 8 h.offsets_offset)) := by
    have hd : (h.to_bytes.drop 4).drop 4 = h.to_bytes.drop 8 := by
      rw [List.drop_drop]
    rw [← hd, d4, List.drop_left' (length_toLE 4 _)]
  have d16 : h.to_bytes.drop 16 =
      toLE 8 h.mphf_size ++ (toLE 8 h.keys_offset ++ toLE 8 h.offsets_offset) := by
    have hd : (h.to_bytes.drop 8).drop 8 = h.to_bytes.drop 16 := by
      rw [List.drop_drop]
    rw [← hd, d8, List.drop_left' (length_toLE 8 _)]
  have d24 : h.to_bytes.drop 24 = toLE 8 h.keys_offset ++ toLE 8 h.offsets_offset := by
    have hd : (h.to_bytes.drop 16).drop 8 = h.to_bytes.drop 24 := by
      rw [List.drop_drop]
    rw [← hd, d16, List.drop_left' (length_toLE 8 _)]
  have d32 : h.to_bytes.drop 32 = toLE 8 h.offsets_offset := by
    have hd : (h.to_bytes.drop 24).drop 8 = h.to_bytes.drop 32 := by
      rw [List.drop_drop]
    rw [← hd, d24, List.drop_left' (length_toLE 8 _)]
  have e0 : (h.to_bytes.drop 0).take 4 = h.magic := by
    rw [List.drop_zero]
    show (h.magic ++ _).take 4 = _
    exact List.take_left' hml
  have e1 : (h.to_bytes.drop 4).take 4 = toLE 4 h.version := by
    rw [d4, List.take_left' (length_toLE 4 _)]
  have e2 : (h.to_bytes.drop 8).take 8 = toLE 8 h.num_keys := by
    rw [d8, List.take_left' (length_toLE 8 _)]
  have e3 : (h.to_bytes.drop 16).take 8 = toLE 8 h.mphf_size := by
    rw [d16, List.take_left' (length_toLE 8 _)]
  have e4 : (h.to_bytes.drop 24).take 8 = toLE 8 h.keys_offset := by
    rw [d24, List.take_left' (length_toLE 8 _)]
  have e5 : (h.to_bytes.drop 32).take 8 = toLE 8 h.offsets_offset := by
    rw [d32]
    exact List.take_of_length_le (le_of_eq (length_toLE 8 _))
  have p32 : (256 : Nat) ^ 4 = 2 ^ 32 := by norm_num
  have p64 : (256 : Nat) ^ 8 = 2 ^ 64 := by norm_num
  have hv' : h.version < 256 ^ 4 := by rw [p32]; exact hv
  have hk' : h.num_keys < 256 ^ 8 := by rw [p64]; exact hk
  have hms' : h.mphf_size < 256 ^ 8 := by rw [p64]; exact hms
  have hko' : h.keys_offset < 256 ^ 8 := by rw [p64]; exact hko
  have hoo' : h.offsets_offset < 256 ^ 8 := by rw [p64]; exact hoo
  have h36 : ¬ (40 : Nat) < 36 := by norm_num
  have h40 : ¬ (40 : Nat) < 40 := by norm_num
  simp only [IndexHeader.from_bytes, hlen, h36, h40, if_false, e0, e1, e2, e3, e4, e5,
    fromLE_toLE_of_lt hv', fromLE_toLE_of_lt hk', fromLE_toLE_of_lt hms',
    fromLE_toLE_of_lt hko', fromLE_toLE_of_lt hoo', hm, ne_eq, not_true_eq_false]
  rw [← hm]

/-! ### List support lemmas -/

theorem mapRange_getD {α : Type} [Inhabited α] (f : Nat → α) (n j : Nat) (d : α)
    (h : j < n) : (((List.range n).map f).getD j d) = f j := by
  rw [List.getD_eq_getElem _ d (by simpa using h), List.getElem_map, List.getElem_range]

theorem mapRange_getD_self (l : List Nat) :
    (List.range l.length).map (fun t => l.getD t 0) = l := by
  apply List.ext_getElem
  · simp
  · intro i h1 h2
    simp only [List.getElem_map, List.getElem_range]
    rw [List.getD_eq_getElem _ 0 (by simpa using h2)]

theorem sum_take_succ (ls : List Nat) (j : Nat) (h : j < ls.length) :
    (ls.take (j + 1)).sum = (ls.take j).sum + ls.getD j 0 := by
  induction ls generalizing j with
  | nil => simp at h
  | cons a ls ih =>
      cases j with
      | zero => simp
      | succ j =>
          simp only [List.take_succ_cons, List.sum_cons, List.getD_cons_succ]
          rw [ih j (by simpa using h)]
          omega

theorem sum_take_le (ls : List Nat) (j : Nat) : (ls.take j).sum ≤ ls.sum := by
  conv_rhs => rw [← List.take_append_drop j ls]
  rw [List.sum_append]
  exact Nat.le_add_right _ _

theorem uniform_map_length_sum (blocks : List (List Nat)) (sz : Nat)
    (h : ∀ bl ∈ blocks, bl.length = sz) :
    (blocks.map List.length).sum = blocks.length * sz := by
  induction blocks with
  | nil => simp
  | cons b bs ih =>
      simp only [List.map_cons, List.sum_cons, List.length_cons]
      rw [h b (List.mem_cons_self _ _), ih (fun bl hbl => h bl (List.mem_cons_of_mem _ hbl))]
      ring

theorem sliceL_prefix (a b : List Nat) (m : Nat) (h : a.length = m) :
    sliceL (a ++ b) 0 m = some a := by
  unfold sliceL
  rw [if_pos]
  · rw [List.drop_zero, Nat.sub_zero, List.take_left' h]
  · constructor
    · exact Nat.zero_le m
    · rw [List.length_append]
      omega

theorem sliceL_shift (pre rest : List Nat) (a b : Nat) :
    sliceL (pre ++ rest) (pre.length + a) (pre.length + b) = sliceL rest a b := by
  unfold sliceL
  have hc : (pre.length + a ≤ pre.length + b ∧ pre.length + b ≤ (pre ++ rest).length)
      ↔ (a ≤ b ∧ b ≤ rest.length) := by
    rw [List.length_append]
    omega
  by_cases h : a ≤ b ∧ b ≤ rest.length
  · rw [if_pos (hc.mpr h), if_pos h, List.drop_append]
    have : pre.length + b - (pre.length + a) = b - a := by omega
    rw [this]
  · rw [if_neg (fun hh => h (hc.mp hh)), if_neg h]

theorem sliceL_chunk (sz : Nat) (post : List Nat) :
    ∀ (blocks : List (List Nat)), (∀ bl ∈ blocks, bl.length = sz) →
      ∀ t, t < blocks.length →
        sliceL (blocks.flatten ++ post) (t * sz) (t * sz + sz) = some (blocks.getD t [])
  | [], _, t, ht => by simp at ht
  | b :: bs, hs, 0, ht => by
      have hb : b.length = sz := hs b (List.mem_cons_self _ _)
      simp only [Nat.zero_mul, List.flatten_cons, List.getD_cons_zero]
      rw [List.append_assoc]
      have := sliceL_prefix b (bs.flatten ++ post) sz hb
      simpa using this
  | b :: bs, hs, t + 1, ht => by
      have hb : b.length = sz := hs b (List.mem_cons_self _ _)
      have h1 : (t + 1) * sz = b.length + t * sz := by rw [hb]; ring
      have h2 : (t + 1) * sz + sz = b.length + (t * sz + sz) := by rw [hb]; ring
      simp only [List.flatten_cons, List.getD_cons_succ]
      rw [List.append_assoc, h2, h1, sliceL_shift]
      exact sliceL_chunk sz post bs (fun bl hbl => hs bl (List.mem_cons_of_mem _ hbl)) t
        (by simpa using ht)

theorem readChunks_eq (f : List Nat) (start sz : Nat) (g : Nat → List Nat) :
    ∀ (cnt i : Nat),
      (∀ t, t < cnt → sliceL f (start + (i + t) * sz) (start + (i + t) * sz + sz)
        = some (g (i + t))) →
      readChunks f start sz i cnt = some ((List.range cnt).map (fun t => g (i + t)))
  | 0, i, _ => by simp [readChunks]
  | cnt + 1, i, h => by
      have h0 := h 0 (Nat.succ_pos cnt)
      have hrec := readChunks_eq f start sz g cnt (i + 1) (fun t ht => by
        have := h (t + 1) (by omega)
        have he : i + (t + 1) = i + 1 + t := by omega
        rwa [he] at this)
      unfold readChunks
      rw [Nat.add_zero] at h0
      rw [h0, hrec]
      refine congrArg some ?_
      rw [List.range_succ_eq_map, List.map_cons, List.map_map]
      refine congrArg₂ List.cons (by rw [Nat.add_zero]) ?_
      apply List.map_congr_left
      intro t _
      simp only [Function.comp_apply]
      refine congrArg g (by omega)

theorem flatten_drop_take (blocks : List (List Nat)) :
    ∀ j, j < blocks.length →
      ((blocks.flatten.drop (((blocks.map List.length).take j).sum)).take
        (blocks.getD j []).length) = blocks.getD j [] := by
  induction blocks with
  | nil => intro j hj; simp at hj
  | cons b bs ih =>
      intro j hj
      cases j with
      | zero =>
          simp only [List.take_zero, List.sum_nil, List.drop_zero, List.flatten_cons,
            List.getD_cons_zero]
          exact List.take_left b bs.flatten
      | succ j =>
          simp only [List.map_cons, List.take_succ_cons, List.sum_cons, List.flatten_cons,
            List.getD_cons_succ]
          rw [List.drop_append]
          exact ih j (by simpa using hj)

/-! ### Properties of the inverse-permutation loop -/

theorem fillPerm_ok (mphf : List Nat → Nat) (n : Nat) :
    ∀ (ks : List (List Nat)) (i : Nat) (acc : List Nat),
      (∀ k ∈ ks, mphf k < n) →
      ∃ res, fillPerm mphf n ks i acc = some res
  | [], i, acc, _ => ⟨acc, rfl⟩
  | k :: ks, i, acc, h => by
      have hk : mphf k < n := h k (List.mem_cons_self _ _)
      obtain ⟨res, hres⟩ := fillPerm_ok mphf n ks (i + 1) (acc.set (mphf k) i)
        (fun k' hk' => h k' (List.mem_cons_of_mem _ hk'))
      exact ⟨res, by rw [fillPerm, if_pos hk, hres]⟩

theorem fillPerm_length (mphf : List Nat → Nat) (n : Nat) :
    ∀ (ks : List (List Nat)) (i : Nat) (acc res : List Nat),
      fillPerm mphf n ks i acc = some res → res.length = acc.length
  | [], i, acc, res, h => by
      rw [fillPerm] at h
      cases h
      rfl
  | k :: ks, i, acc, res, h => by
      rw [fillPerm] at h
      by_cases hk : mphf k < n
      · rw [if_pos hk] at h
        have := fillPerm_length mphf n ks (i + 1) (acc.set (mphf k) i) res h
        simpa using this
      · rw [if_neg hk] at h
        cases h

theorem fillPerm_get_notin (mphf : List Nat → Nat) (n : Nat) :
    ∀ (ks : List (List Nat)) (i : Nat) (acc res : List Nat) (j : Nat),
      fillPerm mphf n ks i acc = some res →
      (∀ t, t < ks.length → mphf (ks.getD t []) ≠ j) →
      res.getD j 0 = acc.getD j 0
  | [], i, acc, res, j, h, _ => by
      rw [fillPerm] at h
      cases h
      rfl
  | k :: ks, i, acc, res, j, h, hne => by
      rw [fillPerm] at h
      by_cases hk : mphf k < n
      · rw [if_pos hk] at h
        have h0 : mphf k ≠ j := by
          have := hne 0 (by simp)
          simpa using this
        have hrec := fillPerm_get_notin mphf n ks (i + 1) (acc.set (mphf k) i) res j h
          (fun t ht => by
            have := hne (t + 1) (by simpa using Nat.succ_lt_succ ht)
            simpa using this)
        rw [hrec]
        rcases Nat.lt_or_ge j acc.length with hj | hj
        · rw [List.getD_eq_getElem _ 0 (by simpa using hj),
            List.getD_eq_getElem _ 0 hj, List.getElem_set_ne h0]
        · rw [List.getD_eq_default _ 0 (by simpa using hj), List.getD_eq_default _ 0 hj]
      · rw [if_neg hk] at h
        cases h

theorem fillPerm_get (mphf : List Nat → Nat) (n : Nat) :
    ∀ (ks : List (List Nat)) (i : Nat) (acc res : List Nat) (t : Nat),
      fillPerm mphf n ks i acc = some res →
      t < ks.length →
      (∀ t', t < t' → t' < ks.length → mphf (ks.getD t' []) ≠ mphf (ks.getD t [])) →
      mphf (ks.getD t []) < acc.length →
      res.getD (mphf (ks.getD t [])) 0 = i + t
  | [], _, _, _, t, _, ht, _, _ => by simp at ht
  | k :: ks, i, acc, res, 0, h, ht, hlater, hlt => by
      rw [fillPerm] at h
      by_cases hk : mphf k < n
      · rw [if_pos hk] at h
        simp only [List.getD_cons_zero] at hlater hlt ⊢
        have hnotin : ∀ t', t' < ks.length → mphf (ks.getD t' []) ≠ mphf k := by
          intro t' ht'
          have := hlater (t' + 1) (Nat.succ_pos t') (by simpa using Nat.succ_lt_succ ht')
          simpa using this
        rw [fillPerm_get_notin mphf n ks (i + 1) (acc.set (mphf k) i) res (mphf k) h hnotin]
        rw [List.getD_eq_getElem _ 0 (by simpa using hlt), List.getElem_set_self]
        omega
      · rw [if_neg hk] at h
        cases h
  | k :: ks, i, acc, res, t + 1, h, ht, hlater, hlt => by
      rw [fillPerm] at h
      by_cases hk : mphf k < n
      · rw [if_pos hk] at h
        simp only [List.getD_cons_succ] at hlater hlt ⊢
        have hrec := fillPerm_get mphf n ks (i + 1) (acc.set (mphf k) i) res t h
          (by simpa using ht)
          (fun t' ht1 ht2 => by
            have := hlater (t' + 1) (by omega) (by simpa using Nat.succ_lt_succ ht2)
            simpa using this)
          (by simpa using hlt)
        rw [hrec]
        omega
      · rw [if_neg hk] at h
        cases h

theorem fillPerm_entries_lt (mphf : List Nat → Nat) (n m : Nat) :
    ∀ (ks : List (List Nat)) (i : Nat) (acc res : List Nat),
      fillPerm mphf n ks i acc = some res →
      (∀ x ∈ acc, x < m) →
      i + ks.length ≤ m →
      ∀ x ∈ res, x < m
  | [], i, acc, res, h, hacc, _ => by
      rw [fillPerm] at h
      cases h
      exact hacc
  | k :: ks, i, acc, res, h, hacc, hm => by
      rw [fillPerm] at h
      by_cases hk : mphf k < n
      · rw [if_pos hk] at h
        refine fillPerm_entries_lt mphf n m ks (i + 1) (acc.set (mphf k) i) res h ?_ ?_
        · intro x hx
          rcases List.mem_or_eq_of_mem_set hx with hx | hx
          · exact hacc x hx
          · subst hx
            simp only [List.length_cons] at hm
            omega
        · simp only [List.length_cons] at hm
          omega
      · rw [if_neg hk] at h
        cases h

/-! ### Properties of the offsets prefix sums -/

theorem offsetsFrom_length (ls : List Nat) : ∀ c, (offsetsFrom c ls).length = ls.length := by
  induction ls with
  | nil => intro c; rfl
  | cons l ls ih => intro c; simp [offsetsFrom, ih]

theorem offsetsFrom_get? (ls : List Nat) :
    ∀ (c j : Nat), j < ls.length →
      (offsetsFrom c ls).get? j = some (c + (ls.take j).sum) := by
  induction ls with
  | nil => intro c j hj; simp at hj
  | cons l ls ih =>
      intro c j hj
      cases j with
      | zero => simp [offsetsFrom]
      | succ j =>
          simp only [offsetsFrom, List.get?_cons_succ, List.take_succ_cons, List.sum_cons]
          rw [ih (c + l) j (by simpa using hj)]
          refine congrArg some (by omega)

theorem offsetsFrom_le_mem (ls : List Nat) :
    ∀ c x, x ∈ offsetsFrom c ls → c ≤ x := by
  induction ls with
  | nil => intro c x hx; simp [offsetsFrom] at hx
  | cons l ls ih =>
      intro c x hx
      rcases List.mem_cons.mp hx with hx | hx
      · omega
      · have := ih (c + l) x hx
        omega

theorem offsetsFrom_pairwise (ls : List Nat) :
    ∀ c, (offsetsFrom c ls).Pairwise (· ≤ ·) := by
  induction ls with
  | nil => intro c; simp [offsetsFrom]
  | cons l ls ih =>
      intro c
      refine List.Pairwise.cons ?_ (ih (c + l))
      intro x hx
      have := offsetsFrom_le_mem ls (c + l) x hx
      omega

theorem offsetsFrom_mem_le_sum (ls : List Nat) :
    ∀ c x, x ∈ offsetsFrom c ls → x ≤ c + ls.sum := by
  induction ls with
  | nil => intro c x hx; simp [offsetsFrom] at hx
  | cons l ls ih =>
      intro c x hx
      rcases List.mem_cons.mp hx with hx | hx
      · simp [hx]
      · have := ih (c + l) x hx
        simp only [List.sum_cons]
        omega

theorem getD_mem_of_lt {α : Type} [Inhabited α] (l : List α) (j : Nat) (d : α)
    (h : j < l.length) : l.getD j d ∈ l := by
  rw [List.getD_eq_getElem _ d h]
  exact List.getElem_mem h

theorem write_database_eq (mphf : List Nat → Nat) (mphfBytes : List Nat)
    (keys values : List (List Nat)) (version : Nat)
    (hlen : keys.length = values.length)
    (h16 : ∀ k ∈ keys, k.length = KEY_SIZE)
    (hlt : ∀ k ∈ keys, mphf k < keys.length) :
    ∃ perm, fillPerm mphf keys.length keys 0 (List.replicate keys.length 0) = some perm ∧
      write_database mphf mphfBytes keys values version =
        some (mkDataF version perm values, mkIdxF mphfBytes perm keys values) := by
  have hfst : (keys.zip values).map Prod.fst = keys :=
    List.map_fst_zip keys values (le_of_eq hlen)
  have hsnd : (keys.zip values).map Prod.snd = values :=
    List.map_snd_zip keys values (le_of_eq hlen.symm)
  have hall : (keys.zip values).all (fun p => decide (p.1.length = KEY_SIZE)) = true := by
    rw [List.all_eq_true]
    rintro ⟨a, b⟩ hp
    have ha : a ∈ keys := (List.of_mem_zip hp).1
    simpa using h16 a ha
  obtain ⟨perm, hperm⟩ := fillPerm_ok mphf keys.length keys 0 (List.replicate keys.length 0) hlt
  refine ⟨perm, hperm, ?_⟩
  unfold write_database
  simp only [hfst, hsnd, hall, if_true]
  rw [hperm]

theorem open_built (mphf : List Nat → Nat) (deser : List Nat → Option (List Nat → Nat))
    (mphfBytes perm : List Nat) (keys values : List (List Nat)) (version : Nat)
    (hkn : keys.length = perm.length)
    (hvn : values.length = perm.length)
    (hperm_lt : ∀ x ∈ perm, x < perm.length)
    (hk16 : ∀ k ∈ keys, k.length = KEY_SIZE)
    (hdeser : deser mphfBytes = some mphf)
    (hver : version < 2 ^ 32)
    (hfit : 40 + mphfBytes.length + 24 * perm.length +
      (values.map List.length).sum * (perm.length + 1) < 2 ^ 64) :
    openDb deser (mkDataF version perm values) (mkIdxF mphfBytes perm keys values) =
      .ok ⟨⟨dabaMagic, version, perm.length, KEY_SIZE, 32⟩, mkDataF version perm values,
        offsOf perm values, (List.range perm.length).map (slotOf perm keys), mphf⟩ := by
  -- Abbreviations and size bounds
  have hP : (values.map List.length).sum * perm.length ≤
      (values.map List.length).sum * (perm.length + 1) :=
    Nat.mul_le_mul_left _ (Nat.le_succ _)
  have hlin : 40 + mphfBytes.length + 24 * perm.length < 2 ^ 64 := by omega
  have hn64 : perm.length < 2 ^ 64 := by
    have h64 : (0 : Nat) < 2 ^ 64 := Nat.pos_pow_of_pos 64 (by norm_num)
    omega
  have hmsz64 : mphfBytes.length < 2 ^ 64 := by omega
  have hko64 : 40 + mphfBytes.length < 2 ^ 64 := by omega
  have hoo64 : 40 + mphfBytes.length + perm.length * KEY_SIZE < 2 ^ 64 := by
    have : perm.length * KEY_SIZE ≤ 24 * perm.length := by
      simp only [KEY_SIZE]
      omega
    omega
  -- Slot lengths are bounded by the total value length
  have hslot_len : ∀ j, j < perm.length →
      (slotOf perm values j).length ≤ (values.map List.length).sum := by
    intro j hj
    have hpj : perm.getD j 0 ∈ perm := getD_mem_of_lt perm j 0 hj
    have hpj' : perm.getD j 0 < values.length := by
      rw [hvn]
      exact hperm_lt _ hpj
    have hmem : (values.getD (perm.getD j 0) []).length ∈ values.map List.length :=
      List.mem_map_of_mem _ (getD_mem_of_lt values _ [] hpj')
    exact List.single_le_sum (fun x _ => Nat.zero_le x) _ hmem
  have hlens_sum : (lensOf perm values).sum ≤
      (values.map List.length).sum * perm.length := by
    have hb := List.sum_le_card_nsmul (lensOf perm values) ((values.map List.length).sum) ?_
    · have hl : (lensOf perm values).length = perm.length := by
        simp [lensOf]
      rw [hl] at hb
      simpa [Nat.mul_comm, smul_eq_mul] using hb
    · intro x hx
      simp only [lensOf, List.mem_map, List.mem_range] at hx
      obtain ⟨j, hj, rfl⟩ := hx
      exact hslot_len j hj
  have hofs_lt : ∀ x ∈ offsOf perm values, x < 2 ^ 64 := by
    intro x hx
    have h1 : x ≤ 0 + (lensOf perm values).sum :=
      offsetsFrom_mem_le_sum (lensOf perm values) 0 x hx
    have : (values.map List.length).sum * perm.length <
        2 ^ 64 := by omega
    omega
  -- Data file header
  have hdh_len : (mkDabaHeader version perm.length).to_bytes.length = 32 := by
    simp [DabaHeader.to_bytes, mkDabaHeader, dabaMagic, length_toLE]
  have hslice_d : sliceL (mkDataF version perm values) 0 32 =
      some (mkDabaHeader version perm.length).to_bytes :=
    sliceL_prefix _ _ 32 hdh_len
  have hdaba : DabaHeader.from_bytes (mkDabaHeader version perm.length).to_bytes =
      .ok (mkDabaHeader version perm.length) := by
    refine daba_roundtrip _ rfl hver hn64 ?_ ?_
    · show KEY_SIZE < 2 ^ 64
      norm_num [KEY_SIZE]
    · show (32 : Nat) < 2 ^ 64
      norm_num
  -- Index file header
  have hih_len : (mkIndexHeader perm.length mphfBytes.length).to_bytes.length = 40 := by
    simp [IndexHeader.to_bytes, mkIndexHeader, kidxMagic, length_toLE]
  have hidx_assoc : mkIdxF mphfBytes perm keys values =
      (mkIndexHeader perm.length mphfBytes.length).to_bytes ++
        (mphfBytes ++ (keysSec perm keys ++ ((offsOf perm values).map (toLE 8)).flatten)) := by
    simp [mkIdxF, List.append_assoc]
  have hslice_i : sliceL (mkIdxF mphfBytes perm keys values) 0 40 =
      some (mkIndexHeader perm.length mphfBytes.length).to_bytes := by
    rw [hidx_assoc]
    exact sliceL_prefix _ _ 40 hih_len
  have hindex : IndexHeader.from_bytes (mkIndexHeader perm.length mphfBytes.length).to_bytes =
      .ok (mkIndexHeader perm.length mphfBytes.length) := by
    refine index_roundtrip _ rfl (by norm_num [mkIndexHeader]) hn64 hmsz64 hko64 ?_
    show 40 + mphfBytes.length + perm.length * KEY_SIZE < 2 ^ 64
    exact hoo64
  -- MPHF byte slice
  have hslice_m : sliceL (mkIdxF mphfBytes perm keys values) 40 (40 + mphfBytes.length) =
      some mphfBytes := by
    rw [hidx_assoc]
    have h40m : (40 : Nat) + mphfBytes.length =
        (mkIndexHeader perm.length mphfBytes.length).to_bytes.length + mphfBytes.length := by
      rw [hih_len]
    have h40 : (40 : Nat) =
        (mkIndexHeader perm.length mphfBytes.length).to_bytes.length + 0 := by
      rw [hih_len]
    rw [h40m, h40, sliceL_shift]
    exact sliceL_prefix _ _ _ rfl
  -- Keys section chunks
  have hkuniform : ∀ bl ∈ (List.range perm.length).map (slotOf perm keys),
      bl.length = KEY_SIZE := by
    intro bl hbl
    simp only [List.mem_map, List.mem_range] at hbl
    obtain ⟨j, hj, rfl⟩ := hbl
    have hpj : perm.getD j 0 ∈ perm := getD_mem_of_lt perm j 0 hj
    have hpj' : perm.getD j 0 < keys.length := by
      rw [hkn]
      exact hperm_lt _ hpj
    exact hk16 _ (getD_mem_of_lt keys _ [] hpj')
  have hpre2_len :
      ((mkIndexHeader perm.length mphfBytes.length).to_bytes ++ mphfBytes).length =
        40 + mphfBytes.length := by
    simp [hih_len]
  have hidx_assoc2 : mkIdxF mphfBytes perm keys values =
      ((mkIndexHeader perm.length mphfBytes.length).to_bytes ++ mphfBytes) ++
        (((List.range perm.length).map (slotOf perm keys)).flatten ++
          ((offsOf perm values).map (toLE 8)).flatten) := by
    simp [mkIdxF, keysSec, List.append_assoc]
  have hkchunk : ∀ t, t < perm.length →
      sliceL (mkIdxF mphfBytes perm keys values)
        (40 + mphfBytes.length + (0 + t) * KEY_SIZE)
        (40 + mphfBytes.length + (0 + t) * KEY_SIZE + KEY_SIZE) =
        some (slotOf perm keys (0 + t)) := by
    intro t ht
    simp only [Nat.zero_add]
    rw [hidx_assoc2]
    have e2 : 40 + mphfBytes.length + t * KEY_SIZE + KEY_SIZE =
        ((mkIndexHeader perm.length mphfBytes.length).to_bytes ++ mphfBytes).length +
          (t * KEY_SIZE + KEY_SIZE) := by
      rw [hpre2_len]
      omega
    have e1 : 40 + mphfBytes.length + t * KEY_SIZE =
        ((mkIndexHeader perm.length mphfBytes.length).to_bytes ++ mphfBytes).length +
          t * KEY_SIZE := by
      rw [hpre2_len]
    rw [e2, e1, sliceL_shift]
    have hc := sliceL_chunk KEY_SIZE (((offsOf perm values).map (toLE 8)).flatten)
      ((List.range perm.length).map (slotOf perm keys)) hkuniform t (by simpa using ht)
    rw [hc, mapRange_getD (slotOf perm keys) perm.length t [] ht]
  have hkeys_rc : readChunks (mkIdxF mphfBytes perm keys values)
      (40 + mphfBytes.length) KEY_SIZE 0 perm.length =
      some ((List.range perm.length).map (slotOf perm keys)) := by
    have := readChunks_eq (mkIdxF mphfBytes perm keys values) (40 + mphfBytes.length)
      KEY_SIZE (slotOf perm keys) perm.length 0 hkchunk
    simpa using this
  -- Offsets section chunks
  have hoffs_len : (offsOf perm values).length = perm.length := by
    simp [offsOf, offsetsFrom_length, lensOf]
  have hoblocks_uniform : ∀ bl ∈ (offsOf perm values).map (toLE 8), bl.length = 8 := by
    intro bl hbl
    simp only [List.mem_map] at hbl
    obtain ⟨x, _, rfl⟩ := hbl
    exact length_toLE 8 x
  have hksec_len : (keysSec perm keys).length = perm.length * KEY_SIZE := by
    simp only [keysSec, List.length_flatten]
    rw [uniform_map_length_sum _ KEY_SIZE hkuniform]
    simp
  have hpre3_len :
      (((mkIndexHeader perm.length mphfBytes.length).to_bytes ++ mphfBytes) ++
        keysSec perm keys).length = 40 + mphfBytes.length + perm.length * KEY_SIZE := by
    simp only [List.length_append, hih_len, hksec_len]
  have hidx_assoc3 : mkIdxF mphfBytes perm keys values =
      (((mkIndexHeader perm.length mphfBytes.length).to_bytes ++ mphfBytes) ++
        keysSec perm keys) ++ ((offsOf perm values).map (toLE 8)).flatten := by
    simp [mkIdxF, List.append_assoc]
  have hochunk : ∀ t, t < perm.length →
      sliceL (mkIdxF mphfBytes perm keys values)
        (40 + mphfBytes.length + perm.length * KEY_SIZE + (0 + t) * 8)
        (40 + mphfBytes.length + perm.length * KEY_SIZE + (0 + t) * 8 + 8) =
        some (toLE 8 ((offsOf perm values).getD (0 + t) 0)) := by
    intro t ht
    simp only [Nat.zero_add]
    rw [hidx_assoc3]
    have e2 : 40 + mphfBytes.length + perm.length * KEY_SIZE + t * 8 + 8 =
        (((mkIndexHeader perm.length mphfBytes.length).to_bytes ++ mphfBytes) ++
          keysSec perm keys).length + (t * 8 + 8) := by
      rw [hpre3_len]
      omega
    have e1 : 40 + mphfBytes.length + perm.length * KEY_SIZE + t * 8 =
        (((mkIndexHeader perm.length mphfBytes.length).to_bytes ++ mphfBytes) ++
          keysSec perm keys).length + t * 8 := by
      rw [hpre3_len]
    rw [e2, e1, sliceL_shift]
    have hkeysSec : keysSec perm keys = ((List.range perm.length).map (slotOf perm keys)).flatten := rfl
    have hflat : ((offsOf perm values).map (toLE 8)).flatten =
        ((offsOf perm values).map (toLE 8)).flatten ++ [] := by simp
    have htb : t < ((offsOf perm values).map (toLE 8)).length := by
      simpa [hoffs_len] using ht
    have hc := sliceL_chunk 8 [] ((offsOf perm values).map (toLE 8)) hoblocks_uniform t htb
    rw [hflat, hc]
    refine congrArg some ?_
    rw [List.getD_eq_getElem _ [] htb, List.getElem_map,
      ← List.getD_eq_getElem (offsOf perm values) 0 (by simpa [hoffs_len] using ht)]
  have hoffs_rc : readChunks (mkIdxF mphfBytes perm keys values)
      (40 + mphfBytes.length + perm.length * KEY_SIZE) 8 0 perm.length =
      some ((List.range perm.length).map (fun t => toLE 8 ((offsOf perm values).getD t 0))) := by
    have := readChunks_eq (mkIdxF mphfBytes perm keys values)
      (40 + mphfBytes.length + perm.length * KEY_SIZE) 8
      (fun t => toLE 8 ((offsOf perm values).getD t 0)) perm.length 0 hochunk
    simpa using this
  have hoffs_map : ((List.range perm.length).map
      (fun t => toLE 8 ((offsOf perm values).getD t 0))).map fromLE = offsOf perm values := by
    rw [List.map_map]
    have hcongr : ∀ t ∈ List.range perm.length,
        (fromLE ∘ fun t => toLE 8 ((offsOf perm values).getD t 0)) t =
          (offsOf perm values).getD t 0 := by
      intro t ht
      simp only [Function.comp_apply]
      apply fromLE_toLE_of_lt
      have htl : t < (offsOf perm values).length := by
        rw [hoffs_len]
        simpa using ht
      have hmem : (offsOf perm values).getD t 0 ∈ offsOf perm values :=
        getD_mem_of_lt _ t 0 htl
      have := hofs_lt _ hmem
      have h648 : (256 : Nat) ^ 8 = 2 ^ 64 := by norm_num
      omega
    rw [List.map_congr_left hcongr, ← hoffs_len, mapRange_getD_self]
  -- Assemble
  have pr1 : (mkDabaHeader version perm.length).num_keys = perm.length := rfl
  have pr2 : (mkIndexHeader perm.length mphfBytes.length).num_keys = perm.length := rfl
  have pr3 : (mkIndexHeader perm.length mphfBytes.length).mphf_size = mphfBytes.length := rfl
  have pr4 : (mkIndexHeader perm.length mphfBytes.length).keys_offset =
      40 + mphfBytes.length := rfl
  have pr5 : (mkIndexHeader perm.length mphfBytes.length).offsets_offset =
      40 + mphfBytes.length + perm.length * KEY_SIZE := rfl
  simp only [openDb, hslice_d, hdaba, hslice_i, hindex, pr1, pr2, pr3, pr4, pr5,
    eq_self_iff_true, not_true, if_false, hslice_m, hdeser, hkeys_rc, hoffs_rc, hoffs_map]
  rw [if_neg (fun hc => hc rfl)]
  rfl

theorem get_built (mphf : List Nat → Nat) (key : List Nat) (perm : List Nat)
    (keys values : List (List Nat)) (version : Nat)
    (hidx : mphf key < perm.length)
    (hkey : slotOf perm keys (mphf key) = key) :
    (Database.mk ⟨dabaMagic, version, perm.length, KEY_SIZE, 32⟩
      (mkDataF version perm values) (offsOf perm values)
      ((List.range perm.length).map (slotOf perm keys)) mphf).get key =
      some (some (slotOf perm values (mphf key))) := by
  have hlenlens : (lensOf perm values).length = perm.length := by simp [lensOf]
  have hblens : ((List.range perm.length).map (slotOf perm values)).map List.length =
      lensOf perm values := by
    rw [List.map_map]
    rfl
  have hvslen : (valuesSec perm values).length = (lensOf perm values).sum := by
    simp only [valuesSec, List.length_flatten, hblens]
  have hklen : ((List.range perm.length).map (slotOf perm keys)).length = perm.length := by
    simp
  have hkeysD : ((List.range perm.length).map (slotOf perm keys)).getD (mphf key) [] = key := by
    rw [mapRange_getD _ _ _ _ hidx, hkey]
  have hoget : (offsOf perm values).get? (mphf key) =
      some (((lensOf perm values).take (mphf key)).sum) := by
    have := offsetsFrom_get? (lensOf perm values) 0 (mphf key) (by rw [hlenlens]; exact hidx)
    simpa using this
  have hlidx : (lensOf perm values).getD (mphf key) 0 = (slotOf perm values (mphf key)).length := by
    have := mapRange_getD (fun j => (slotOf perm values j).length) perm.length (mphf key) 0 hidx
    simpa [lensOf] using this
  have hsum_succ : ((lensOf perm values).take (mphf key + 1)).sum =
      ((lensOf perm values).take (mphf key)).sum + (slotOf perm values (mphf key)).length := by
    rw [sum_take_succ _ _ (by rw [hlenlens]; exact hidx), hlidx]
  have hend : (match (offsOf perm values).get? (mphf key + 1) with
      | some v => some v
      | none =>
          if (32 : Nat) ≤ (mkDataF version perm values).length
          then some ((mkDataF version perm values).length - 32)
          else none) = some (((lensOf perm values).take (mphf key + 1)).sum) := by
    have hdlen : (mkDataF version perm values).length = 32 + (lensOf perm values).sum := by
      simp only [mkDataF, List.length_append, hvslen]
      have h32 : (mkDabaHeader version perm.length).to_bytes.length = 32 := by
        simp [DabaHeader.to_bytes, mkDabaHeader, dabaMagic, length_toLE]
      rw [h32]
    rcases Nat.lt_or_ge (mphf key + 1) perm.length with hlt | hge
    · have hg : (offsOf perm values).get? (mphf key + 1) =
          some (0 + ((lensOf perm values).take (mphf key + 1)).sum) :=
        offsetsFrom_get? (lensOf perm values) 0 (mphf key + 1) (by rw [hlenlens]; exact hlt)
      rw [hg]
      simp
    · have hnone : (offsOf perm values).get? (mphf key + 1) = none := by
        rw [List.get?_eq_none]
        rw [offsOf, offsetsFrom_length, hlenlens]
        exact hge
      rw [hnone]
      have htake : (lensOf perm values).take (mphf key + 1) = lensOf perm values := by
        apply List.take_of_length_le
        rw [hlenlens]
        exact hge
      rw [htake, hdlen, if_pos (by omega)]
      refine congrArg some (by omega)
  have hslice : ((mkDataF version perm values).drop
        (32 + ((lensOf perm values).take (mphf key)).sum)).take
        ((32 + ((lensOf perm values).take (mphf key + 1)).sum) -
          (32 + ((lensOf perm values).take (mphf key)).sum)) =
      slotOf perm values (mphf key) := by
    have hsub : (32 + ((lensOf perm values).take (mphf key + 1)).sum) -
        (32 + ((lensOf perm values).take (mphf key)).sum) =
        (slotOf perm values (mphf key)).length := by
      rw [hsum_succ]
      omega
    rw [hsub]
    have h32 : (mkDabaHeader version perm.length).to_bytes.length = 32 := by
      simp [DabaHeader.to_bytes, mkDabaHeader, dabaMagic, length_toLE]
    have hdrop : (mkDataF version perm values).drop
        (32 + ((lensOf perm values).take (mphf key)).sum) =
        (valuesSec perm values).drop (((lensOf perm values).take (mphf key)).sum) := by
      unfold mkDataF
      rw [← h32, List.drop_append]
    rw [hdrop]
    have hft := flatten_drop_take ((List.range perm.length).map (slotOf perm values))
      (mphf key) (by simpa using hidx)
    rw [hblens] at hft
    rw [mapRange_getD _ _ _ _ hidx] at hft
    exact hft
  -- Now evaluate get
  simp only [Database.get, hklen, hkeysD, hoget, hend]
  rw [if_neg (by omega), if_neg (by simp)]
  have hc : 32 + ((lensOf perm values).take (mphf key)).sum ≤
      32 + ((lensOf perm values).take (mphf key + 1)).sum ∧
      32 + ((lensOf perm values).take (mphf key + 1)).sum ≤
        (mkDataF version perm values).length := by
    constructor
    · rw [hsum_succ]
      omega
    · have hdlen : (mkDataF version perm values).length = 32 + (lensOf perm values).sum := by
        simp only [mkDataF, List.length_append, hvslen]
        have h32 : (mkDabaHeader version perm.length).to_bytes.length = 32 := by
          simp [DabaHeader.to_bytes, mkDabaHeader, dabaMagic, length_toLE]
        rw [h32]
      rw [hdlen]
      have := sum_take_le (lensOf perm values) (mphf key + 1)
      omega
  rw [if_pos hc, hslice]

theorem nodup_getD_inj {α : Type} [Inhabited α] (l : List α) (hnd : l.Nodup)
    (i j : Nat) (d : α) (hi : i < l.length) (hj : j < l.length)
    (h : l.getD i d = l.getD j d) : i = j := by
  rw [List.getD_eq_getElem _ d hi, List.getD_eq_getElem _ d hj] at h
  exact (List.Nodup.getElem_inj_iff hnd).mp h
theorem perm_length (mphf : List Nat → Nat) (keys : List (List Nat)) (perm : List Nat)
    (hp : fillPerm mphf keys.length keys 0 (List.replicate keys.length 0) = some perm) :
    perm.length = keys.length := by
  have := fillPerm_length mphf keys.length keys 0 (List.replicate keys.length 0) perm hp
  simpa using this

theorem perm_entries (mphf : List Nat → Nat) (keys : List (List Nat)) (perm : List Nat)
    (hp : fillPerm mphf keys.length keys 0 (List.replicate keys.length 0) = some perm) :
    ∀ x ∈ perm, x < keys.length := by
  rcases Nat.eq_zero_or_pos keys.length with hn | hn
  · have hke : keys = [] := List.length_eq_zero.mp hn
    subst hke
    simp only [List.length_nil, List.replicate, fillPerm] at hp
    cases hp
    intro x hx
    simp at hx
  · refine fillPerm_entries_lt mphf keys.length keys.length keys 0
      (List.replicate keys.length 0) perm hp ?_ ?_
    · intro x hx
      have := List.eq_of_mem_replicate hx
      subst this
      omega
    · omega

theorem perm_inverse (mphf : List Nat → Nat) (keys : List (List Nat)) (perm : List Nat)
    (hnd : keys.Nodup)
    (hinj : ∀ k1 ∈ keys, ∀ k2 ∈ keys, mphf k1 = mphf k2 → k1 = k2)
    (hlt : ∀ k ∈ keys, mphf k < keys.length)
    (hp : fillPerm mphf keys.length keys 0 (List.replicate keys.length 0) = some perm)
    (i : Nat) (hi : i < keys.length) :
    perm.getD (mphf (keys.getD i [])) 0 = i := by
  have hlater : ∀ t', i < t' → t' < keys.length →
      mphf (keys.getD t' []) ≠ mphf (keys.getD i []) := by
    intro t' h1 h2 heq
    have hkk := hinj _ (getD_mem_of_lt keys t' [] h2) _ (getD_mem_of_lt keys i [] hi) heq
    have := nodup_getD_inj keys hnd t' i [] h2 hi hkk
    omega
  have hlt' : mphf (keys.getD i []) < (List.replicate keys.length (0 : Nat)).length := by
    rw [List.length_replicate]
    exact hlt _ (getD_mem_of_lt keys i [] hi)
  have := fillPerm_get mphf keys.length keys 0 (List.replicate keys.length 0) perm i hp hi
    hlater hlt'
  simpa using this

theorem get_absent (mphf : List Nat → Nat) (key : List Nat) (perm : List Nat)
    (keys values : List (List Nat)) (version : Nat)
    (hkn : keys.length = perm.length)
    (hperm_lt : ∀ x ∈ perm, x < perm.length)
    (hout : key ∉ keys) :
    (Database.mk ⟨dabaMagic, version, perm.length, KEY_SIZE, 32⟩
      (mkDataF version perm values) (offsOf perm values)
      ((List.range perm.length).map (slotOf perm keys)) mphf).get key = some none := by
  simp only [Database.get]
  have hklen : ((List.range perm.length).map (slotOf perm keys)).length = perm.length := by
    simp
  rcases Nat.lt_or_ge (mphf key) perm.length with hlt | hge
  · rw [if_neg (by rw [hklen]; omega)]
    have hmem : ((List.range perm.length).map (slotOf perm keys)).getD (mphf key) [] ∈ keys := by
      rw [mapRange_getD _ _ _ _ hlt]
      have hpj : perm.getD (mphf key) 0 ∈ perm := getD_mem_of_lt perm _ 0 hlt
      have hpj' : perm.getD (mphf key) 0 < keys.length := by
        rw [hkn]
        exact hperm_lt _ hpj
      exact getD_mem_of_lt keys _ [] hpj'
    have hne : ((List.range perm.length).map (slotOf perm keys)).getD (mphf key) [] ≠ key := by
      intro he
      rw [he] at hmem
      exact hout hmem
    rw [if_pos hne]
  · rw [if_pos (by rw [hklen]; omega)]

/-! ### Support lemmas for the protocol theorems -/

theorem splitLine_no_nl (line : List Nat) (rest : List Nat) (h : (10 : Nat) ∉ line) :
    splitLine (line ++ 10 :: rest) = (line ++ [10], rest) := by
  induction line with
  | nil => simp [splitLine]
  | cons b bs ih =>
      have hb : b ≠ 10 := fun he => h (by rw [he]; exact List.mem_cons_self _ _)
      have hbs : (10 : Nat) ∉ bs := fun hm => h (List.mem_cons_of_mem _ hm)
      simp only [List.cons_append, splitLine, if_neg hb, List.append_eq, ih hbs]

theorem ascii_validUtf8 (l : List Nat) (h : ∀ b ∈ l, b ≤ 127) : validUtf8 l = true := by
  induction l with
  | nil => rfl
  | cons b bs ih =>
      have hb : b ≤ 127 := h b (List.mem_cons_self _ _)
      have hbs : ∀ x ∈ bs, x ≤ 127 := fun x hx => h x (List.mem_cons_of_mem _ hx)
      rw [validUtf8.eq_def]
      simp only [if_pos hb]
      exact ih hbs

/-! ### Claims -/

/-- C5 (code bug evidence): `IndexHeader::from_bytes` on a 36-byte buffer.
The fixed header size is 40 bytes (the code's own comment computes
`4 + 4 + 8 + 8 + 8 + 8 = 40`), yet the truncation guard tests `len < 36`,
so a 36-byte buffer passes the guard and the subsequent `bytes[32..40]`
slice reads past the end of the buffer and panics instead of returning the
Truncated error. -/
theorem c5_index_header_out_of_range :
    (List.replicate 36 (0 : Nat)).length < 40 ∧
    IndexHeader.from_bytes (List.replicate 36 0) = .error .panicked ∧
    IndexHeader.from_bytes (List.replicate 35 0) = .error .truncated ∧
    DabaHeader.from_bytes (List.replicate 31 0) = .error .truncated ∧
    DabaHeader.from_bytes (List.replicate 32 0) = .error .badMagic := by
  refine ⟨by decide, by decide, by decide, by decide, by decide⟩

/-- C6: decoding the encoding of any valid `DabaHeader` (magic `"DABA"`)
and any valid `IndexHeader` (magic `"KIDX"`) succeeds and returns the same
header, field for field; the range hypotheses are the `u32`/`u64` ranges of
the Rust field types. -/
theorem c6_header_round_trip (dh : DabaHeader) (ih : IndexHeader)
    (hdm : dh.magic = dabaMagic) (hdv : dh.version < 2 ^ 32)
    (hdk : dh.num_keys < 2 ^ 64) (hdks : dh.key_size < 2 ^ 64)
    (hdvs : dh.values_start < 2 ^ 64)
    (him : ih.magic = kidxMagic) (hiv : ih.version < 2 ^ 32)
    (hik : ih.num_keys < 2 ^ 64) (hims : ih.mphf_size < 2 ^ 64)
    (hiko : ih.keys_offset < 2 ^ 64) (hioo : ih.offsets_offset < 2 ^ 64) :
    DabaHeader.from_bytes dh.to_bytes = .ok dh ∧
    IndexHeader.from_bytes ih.to_bytes = .ok ih :=
  ⟨daba_roundtrip dh hdm hdv hdk hdks hdvs,
   index_roundtrip ih him hiv hik hims hiko hioo⟩

/-- Witness for C6 at the headers of the repository's own round-trip test
(`num_keys = 12345`) and a small index header. -/
theorem c6_header_round_trip_witness :
    DabaHeader.from_bytes (DabaHeader.mk dabaMagic 1 12345 16 32).to_bytes =
      .ok (DabaHeader.mk dabaMagic 1 12345 16 32) ∧
    IndexHeader.from_bytes (IndexHeader.mk kidxMagic 1 7 3 43 155).to_bytes =
      .ok (IndexHeader.mk kidxMagic 1 7 3 43 155) :=
  c6_header_round_trip (DabaHeader.mk dabaMagic 1 12345 16 32)
    (IndexHeader.mk kidxMagic 1 7 3 43 155)
    rfl (by decide) (by decide) (by decide) (by decide)
    rfl (by decide) (by decide) (by decide) (by decide) (by decide)

/-- C7: whenever the data file's header and the index file's header both
decode but their key count fields disagree, `open` fails with the count
mismatch error and returns no `Database` handle. -/
theorem c7_count_mismatch (deser : List Nat → Option (List Nat → Nat))
    (dataF idxF : List Nat) (dh : DabaHeader) (ih : IndexHeader)
    (hd : 32 ≤ dataF.length)
    (hdh : DabaHeader.from_bytes (dataF.take 32) = .ok dh)
    (hi : 40 ≤ idxF.length)
    (hih : IndexHeader.from_bytes (idxF.take 40) = .ok ih)
    (hne : ih.num_keys ≠ dh.num_keys) :
    openDb deser dataF idxF = .error .countMismatch := by
  have hsd : sliceL dataF 0 32 = some (dataF.take 32) := by
    unfold sliceL
    rw [if_pos ⟨Nat.zero_le _, hd⟩]
    simp
  have hsi : sliceL idxF 0 40 = some (idxF.take 40) := by
    unfold sliceL
    rw [if_pos ⟨Nat.zero_le _, hi⟩]
    simp
  simp only [openDb, hsd, hdh, hsi, hih, if_pos hne]

/-- Witness for C7: a 32-byte data header claiming 1 key against a 40-byte
index header claiming 2 keys. -/
theorem c7_count_mismatch_witness :
    openDb (fun _ => none) (DabaHeader.mk dabaMagic 1 1 16 32).to_bytes
      (IndexHeader.mk kidxMagic 1 2 0 40 72).to_bytes = .error .countMismatch :=
  c7_count_mismatch (fun _ => none) _ _
    (DabaHeader.mk dabaMagic 1 1 16 32) (IndexHeader.mk kidxMagic 1 2 0 40 72)
    (by decide) (by decide) (by decide) (by decide) (by decide)

/-- C9: parsing the exact request
`"*2\x5Cr\x5Cn$3\x5Cr\x5CnGET\x5Cr\x5Cn$15\x5Cr\x5Cnkey000000000001\x5Cr\x5Cn"`
yields an array of the two bulk strings `"GET"` and `"key000000000001"`
with no input left over, and encoding the bulk string `"hello"` produces
exactly `"$5\x5Cr\x5Cnhello\x5Cr\x5Cn"`. -/
theorem c9_protocol_scenario :
    parse_resp [42, 50, 13, 10, 36, 51, 13, 10, 71, 69, 84, 13, 10, 36, 49, 53, 13, 10,
        107, 101, 121, 48, 48, 48, 48, 48, 48, 48, 48, 48, 48, 48, 49, 13, 10] =
      .ok (.Array [.BulkString [71, 69, 84],
        .BulkString [107, 101, 121, 48, 48, 48, 48, 48, 48, 48, 48, 48, 48, 48, 49]], []) ∧
    write_resp (.BulkString [104, 101, 108, 108, 111]) =
      [36, 53, 13, 10, 104, 101, 108, 108, 111, 13, 10] :=
  ⟨rfl, rfl⟩

/-- C10: a bulk-string header whose length field parses as negative — or
fails to parse, which `unwrap_or(-1)` also makes negative — yields
`BulkString` of the empty byte vector and consumes nothing past the header
line, so `"$-1\x5Cr\x5Cn"` followed by `rest` and the genuine zero-length
bulk string `"$0\x5Cr\x5Cn\x5Cr\x5Cn"` followed by `rest` parse to the
same value with the same remainder.  (The line is restricted to ASCII,
where the byte-level model of `trim_end`/UTF-8 validation coincides with
Rust's.) -/
theorem c10_negative_bulk (line rest : List Nat)
    (hascii : ∀ b ∈ line, b ≤ 127)
    (hnl : (10 : Nat) ∉ line)
    (hneg : (parseI64 (trimEndAscii (line ++ [10]))).getD (-1) < 0) :
    parse_resp (36 :: (line ++ 10 :: rest)) = .ok (.BulkString [], rest) ∧
    parse_resp (36 :: (48 :: 13 :: 10 :: 13 :: 10 :: rest)) = .ok (.BulkString [], rest) := by
  constructor
  · have hrl : readLineE (line ++ 10 :: rest) = .ok (line ++ [10], rest) := by
      unfold readLineE
      rw [splitLine_no_nl line rest hnl]
      rw [if_pos]
      apply ascii_validUtf8
      intro b hb
      rcases List.mem_append.mp hb with hb | hb
      · exact hascii b hb
      · simp at hb
        omega
    show parseResp ((36 :: (line ++ 10 :: rest)).length + 1) (36 :: (line ++ 10 :: rest)) =
      .ok (.BulkString [], rest)
    simp only [List.length_cons]
    rw [parseResp]
    rw [if_neg (by decide), if_neg (by decide), if_neg (by decide), if_pos rfl, hrl]
    simp only [if_pos hneg]
  · rfl

/-- Witness for C10 at the null bulk string `"$-1\x5Cr\x5Cn"` with one
byte of following input. -/
theorem c10_negative_bulk_witness :
    parse_resp (36 :: ([45, 49, 13] ++ 10 :: [99])) = .ok (.BulkString [], [99]) ∧
    parse_resp (36 :: (48 :: 13 :: 10 :: 13 :: 10 :: [99])) = .ok (.BulkString [], [99]) :=
  c10_negative_bulk [45, 49, 13] [99] (by decide) (by decide) (by decide)

/-- C4 counterexample: one supplied key of 2 bytes with an empty values
sequence — the sequences have unequal lengths and the key is not 16 bytes,
yet `write_database` succeeds (the `zip` silently drops the unpaired key
before the length assertion can see it) instead of failing fast. -/
theorem c4_counterexample :
    ([[104, 105]] : List (List Nat)).length ≠ ([] : List (List Nat)).length ∧
    ([104, 105] : List Nat).length ≠ KEY_SIZE ∧
    write_database (fun _ => 0) [] [[104, 105]] [] 1 ≠ none := by
  refine ⟨by decide, by decide, by decide⟩

/-- C4 amended: `write_database` panics (the `assert_eq!` on the key size)
exactly when some key among the zipped pairs — the first
`min(|keys|, |values|)` pairs — is not exactly 16 bytes; sequences of
unequal length are not detected, their excess elements are silently
dropped by `zip`.  (The hypothesis keeps the perfect hash within range on
the zipped keys so that the only failure source is the assertion.) -/
theorem c4_amended (mphf : List Nat → Nat) (mphfBytes : List Nat)
    (keys values : List (List Nat)) (version : Nat)
    (hrange : ∀ p ∈ keys.zip values, mphf p.1 < (keys.zip values).length) :
    write_database mphf mphfBytes keys values version = none ↔
      ∃ p ∈ keys.zip values, p.1.length ≠ KEY_SIZE := by
  by_cases hall : (keys.zip values).all (fun p => decide (p.1.length = KEY_SIZE)) = true
  · have hmem : ∀ k ∈ (keys.zip values).map Prod.fst,
        mphf k < ((keys.zip values).map Prod.fst).length := by
      intro k hk
      simp only [List.mem_map] at hk
      obtain ⟨p, hp, rfl⟩ := hk
      simpa using hrange p hp
    obtain ⟨perm, hperm⟩ := fillPerm_ok mphf ((keys.zip values).map Prod.fst).length
      ((keys.zip values).map Prod.fst) 0
      (List.replicate ((keys.zip values).map Prod.fst).length 0) hmem
    constructor
    · intro hnone
      unfold write_database at hnone
      rw [if_pos hall] at hnone
      simp only [hperm] at hnone
      exact absurd hnone (by simp)
    · rintro ⟨p, hp, hbad⟩
      exact absurd (of_decide_eq_true (List.all_eq_true.mp hall p hp)) hbad
  · constructor
    · intro _
      rw [List.all_eq_true] at hall
      push_neg at hall
      obtain ⟨p, hp, hbad⟩ := hall
      exact ⟨p, hp, fun he => hbad (decide_eq_true he)⟩
    · intro _
      unfold write_database
      rw [if_neg hall]

/-- Witness for amended C4: a 3-byte key paired with a value makes
`write_database` panic. -/
theorem c4_amended_witness :
    write_database (fun _ => 0) [] [[1, 2, 3]] [[5]] 1 = none :=
  (c4_amended (fun _ => 0) [] [[1, 2, 3]] [[5]] 1 (by decide)).mpr
    ⟨([1, 2, 3], [5]), by decide, by decide⟩

/-- C3 counterexample: in the concrete two-entry database `exDb`, the
stored key `exK1` owns the last id (`id = 1`, `offsets = [0, 5]`,
`values_start = 32`, data file length 40).  `get` returns the last value
`"bbb"` — its `end` is `data_file_length - values_start = 8` — while the
claim's formula `end = data_file_length - values_start - offsets[id] = 3`
makes the range `[37, 35)`, i.e. the empty byte string, not the stored
value. -/
theorem c3_counterexample :
    Database.get exDb exK1 = some (some [98, 98, 98]) ∧
    getSpecC3 exDb exK1 = some [] ∧
    ([98, 98, 98] : List Nat) ≠ [] := by
  refine ⟨by decide, by decide, by decide⟩

/-- C3 amended: for a stored key (`id = mphf(key) < n`, stored key at `id`
equals the query key) in a well-formed database (offsets and keys arrays of
equal length, ranges inside the mapped data file), `get` computes
`start = offsets[id]`, `end = offsets[id+1]` when `id+1 < n` and otherwise
`end = data_file_length - values_start` (not minus `offsets[id]`), and
returns the byte range `[values_start+start, values_start+end)` of the
mapped data file. -/
theorem c3_amended (db : Database) (key : List Nat)
    (hlt : db.mphf key < db.keys.length)
    (hkey : db.keys.getD (db.mphf key) [] = key)
    (hlen : db.offsets.length = db.keys.length)
    (hvs : db.header.values_start ≤ db.mmap_data.length)
    (hse : db.offsets.getD (db.mphf key) 0 ≤
      (if db.mphf key + 1 < db.keys.length then db.offsets.getD (db.mphf key + 1) 0
       else db.mmap_data.length - db.header.values_start))
    (hb : db.header.values_start +
      (if db.mphf key + 1 < db.keys.length then db.offsets.getD (db.mphf key + 1) 0
       else db.mmap_data.length - db.header.values_start) ≤ db.mmap_data.length) :
    db.get key = some (getSpecC3Fixed db key) := by
  have hidxo : db.mphf key < db.offsets.length := by omega
  have hstart : db.offsets.get? (db.mphf key) = some (db.offsets.getD (db.mphf key) 0) := by
    rw [List.get?_eq_getElem?, List.getElem?_eq_getElem hidxo,
      List.getD_eq_getElem _ _ hidxo]
  have hnkey : ¬ (db.keys.getD (db.mphf key) [] ≠ key) := fun h => h hkey
  have hnge : ¬ (db.mphf key ≥ db.keys.length) := by omega
  rcases Nat.lt_or_ge (db.mphf key + 1) db.keys.length with hlt2 | hge2
  · have h2o : db.mphf key + 1 < db.offsets.length := by omega
    have hnext : db.offsets.get? (db.mphf key + 1) =
        some (db.offsets.getD (db.mphf key + 1) 0) := by
      rw [List.get?_eq_getElem?, List.getElem?_eq_getElem h2o,
        List.getD_eq_getElem _ _ h2o]
    rw [if_pos hlt2] at hse hb
    simp only [Database.get, getSpecC3Fixed, if_neg hnge, if_neg hnkey, hstart, hnext,
      if_pos hlt2]
    rw [if_pos ⟨by omega, hb⟩]
  · have hnone2 : db.offsets.get? (db.mphf key + 1) = none := by
      rw [List.get?_eq_getElem?, List.getElem?_eq_none]
      omega
    rw [if_neg (by omega)] at hse hb
    simp only [Database.get, getSpecC3Fixed, if_neg hnge, if_neg hnkey, hstart, hnone2,
      if_pos hvs, if_neg (show ¬ (db.mphf key + 1 < db.keys.length) by omega)]
    rw [if_pos ⟨by omega, hb⟩]

/-- Witness for amended C3 at the stored key `exK0` of the concrete
database (the `id+1 < n` branch). -/
theorem c3_amended_witness :
    Database.get exDb exK0 = some (getSpecC3Fixed exDb exK0) :=
  c3_amended exDb exK0 (by decide) (by decide) (by decide) (by decide) (by decide) (by decide)

/-- C1: for any finite set of unique 16-byte keys with values, under the
perfect-hash capability contract of spec section 4.2 (the `mphf` maps the
key set injectively into `[0, n)` and deserialising the serialised form
gives back the same query function), `write_database` followed by `open`
succeeds, and `get` on each build key returns exactly the value originally
supplied for it.  The `hver`/`hfit` bounds are the `u32`/`u64` machine
ranges of the Rust types involved. -/
theorem c1_round_trip (mphf : List Nat → Nat) (deser : List Nat → Option (List Nat → Nat))
    (mphfBytes : List Nat) (keys values : List (List Nat)) (version : Nat)
    (hlen : keys.length = values.length)
    (hk16 : ∀ k ∈ keys, k.length = KEY_SIZE)
    (hnd : keys.Nodup)
    (hlt : ∀ k ∈ keys, mphf k < keys.length)
    (hinj : ∀ k1 ∈ keys, ∀ k2 ∈ keys, mphf k1 = mphf k2 → k1 = k2)
    (hdeser : deser mphfBytes = some mphf)
    (hver : version < 2 ^ 32)
    (hfit : 40 + mphfBytes.length + 24 * keys.length +
      (values.map List.length).sum * (keys.length + 1) < 2 ^ 64) :
    ∃ dataF idxF db,
      write_database mphf mphfBytes keys values version = some (dataF, idxF) ∧
      openDb deser dataF idxF = .ok db ∧
      ∀ i, i < keys.length → db.get (keys.getD i []) = some (some (values.getD i [])) := by
  obtain ⟨perm, hperm, hwrite⟩ :=
    write_database_eq mphf mphfBytes keys values version hlen hk16 hlt
  have hpl : perm.length = keys.length := perm_length mphf keys perm hperm
  have hpe : ∀ x ∈ perm, x < perm.length := by
    rw [hpl]
    exact perm_entries mphf keys perm hperm
  have hvn : values.length = perm.length := by omega
  have hopen := open_built mphf deser mphfBytes perm keys values version hpl.symm hvn
    hpe hk16 hdeser hver (by rw [hpl]; exact hfit)
  refine ⟨_, _, _, hwrite, hopen, ?_⟩
  intro i hi
  have hik : mphf (keys.getD i []) < perm.length := by
    rw [hpl]
    exact hlt _ (getD_mem_of_lt keys i [] hi)
  have hpinv : perm.getD (mphf (keys.getD i [])) 0 = i :=
    perm_inverse mphf keys perm hnd hinj hlt hperm i hi
  have hkey : slotOf perm keys (mphf (keys.getD i [])) = keys.getD i [] := by
    unfold slotOf
    rw [hpinv]
  have hg := get_built mphf (keys.getD i []) perm keys values version hik hkey
  rw [hg]
  unfold slotOf
  rw [hpinv]

/-- C2: for a 16-byte key that was not in the build set, `get` on the
opened database returns `None` (`some none`: a normal empty return, not a
panic), regardless of which id the perfect hash assigns to the query key
— including when it aliases an id owned by a stored key, since the stored
key at that id then differs from the query key. -/
theorem c2_absent (mphf : List Nat → Nat) (deser : List Nat → Option (List Nat → Nat))
    (mphfBytes : List Nat) (keys values : List (List Nat)) (version : Nat) (key : List Nat)
    (hlen : keys.length = values.length)
    (hk16 : ∀ k ∈ keys, k.length = KEY_SIZE)
    (hlt : ∀ k ∈ keys, mphf k < keys.length)
    (hdeser : deser mphfBytes = some mphf)
    (hver : version < 2 ^ 32)
    (hfit : 40 + mphfBytes.length + 24 * keys.length +
      (values.map List.length).sum * (keys.length + 1) < 2 ^ 64)
    (hkey16 : key.length = KEY_SIZE)
    (hout : key ∉ keys) :
    ∃ dataF idxF db,
      write_database mphf mphfBytes keys values version = some (dataF, idxF) ∧
      openDb deser dataF idxF = .ok db ∧
      db.get key = some none := by
  obtain ⟨perm, hperm, hwrite⟩ :=
    write_database_eq mphf mphfBytes keys values version hlen hk16 hlt
  have hpl : perm.length = keys.length := perm_length mphf keys perm hperm
  have hpe : ∀ x ∈ perm, x < perm.length := by
    rw [hpl]
    exact perm_entries mphf keys perm hperm
  have hvn : values.length = perm.length := by omega
  have hopen := open_built mphf deser mphfBytes perm keys values version hpl.symm hvn
    hpe hk16 hdeser hver (by rw [hpl]; exact hfit)
  exact ⟨_, _, _, hwrite, hopen,
    get_absent mphf key perm keys values version hpl.symm hpe hout⟩

/-- C8: for a database built from `n ≥ 1` entries, the offsets array
persisted in the index file (as re-read by `open`) starts at 0, is
non-decreasing, and the length of the last slot's value plus
`offsets[n-1]` equals `data_file_length - values_start`. -/
theorem c8_offsets_invariants (mphf : List Nat → Nat)
    (deser : List Nat → Option (List Nat → Nat))
    (mphfBytes : List Nat) (keys values : List (List Nat)) (version : Nat)
    (hlen : keys.length = values.length)
    (hk16 : ∀ k ∈ keys, k.length = KEY_SIZE)
    (hlt : ∀ k ∈ keys, mphf k < keys.length)
    (hdeser : deser mphfBytes = some mphf)
    (hver : version < 2 ^ 32)
    (hfit : 40 + mphfBytes.length + 24 * keys.length +
      (values.map List.length).sum * (keys.length + 1) < 2 ^ 64)
    (hn : 1 ≤ keys.length) :
    ∃ perm dataF idxF db,
      fillPerm mphf keys.length keys 0 (List.replicate keys.length 0) = some perm ∧
      write_database mphf mphfBytes keys values version = some (dataF, idxF) ∧
      openDb deser dataF idxF = .ok db ∧
      db.offsets.getD 0 0 = 0 ∧
      db.offsets.Pairwise (· ≤ ·) ∧
      db.offsets.getD (keys.length - 1) 0 + (slotOf perm values (keys.length - 1)).length =
        dataF.length - db.header.values_start := by
  obtain ⟨perm, hperm, hwrite⟩ :=
    write_database_eq mphf mphfBytes keys values version hlen hk16 hlt
  have hpl : perm.length = keys.length := perm_length mphf keys perm hperm
  have hpe : ∀ x ∈ perm, x < perm.length := by
    rw [hpl]
    exact perm_entries mphf keys perm hperm
  have hvn : values.length = perm.length := by omega
  have hopen := open_built mphf deser mphfBytes perm keys values version hpl.symm hvn
    hpe hk16 hdeser hver (by rw [hpl]; exact hfit)
  refine ⟨perm, _, _, _, hperm, hwrite, hopen, ?_, ?_, ?_⟩
  · -- offsets[0] = 0
    have hlenlens : (lensOf perm values).length = keys.length := by simp [lensOf, hpl]
    have hg := offsetsFrom_get? (lensOf perm values) 0 0 (by omega)
    show (offsOf perm values).getD 0 0 = 0
    rw [List.getD_eq_getD_get?]
    simp only [offsOf]
    rw [hg]
    simp
  · exact offsetsFrom_pairwise _ 0
  · -- last slot
    have hlenlens : (lensOf perm values).length = keys.length := by simp [lensOf, hpl]
    have hn1 : keys.length - 1 < (lensOf perm values).length := by omega
    have hg := offsetsFrom_get? (lensOf perm values) 0 (keys.length - 1) hn1
    have hgetD : (offsOf perm values).getD (keys.length - 1) 0 =
        ((lensOf perm values).take (keys.length - 1)).sum := by
      rw [List.getD_eq_getD_get?]
      simp only [offsOf]
      rw [hg]
      simp
    have hslot : (lensOf perm values).getD (keys.length - 1) 0 =
        (slotOf perm values (keys.length - 1)).length := by
      have := mapRange_getD (fun j => (slotOf perm values j).length) perm.length
        (keys.length - 1) 0 (by omega)
      simpa [lensOf] using this
    have hsucc := sum_take_succ (lensOf perm values) (keys.length - 1) hn1
    have he : keys.length - 1 + 1 = keys.length := by omega
    rw [he] at hsucc
    have htake : (lensOf perm values).take keys.length = lensOf perm values :=
      List.take_of_length_le (le_of_eq hlenlens)
    rw [htake] at hsucc
    have hblens : ((List.range perm.length).map (slotOf perm values)).map List.length =
        lensOf perm values := by
      rw [List.map_map]
      rfl
    have hdlen : (mkDataF version perm values).length = 32 + (lensOf perm values).sum := by
      simp only [mkDataF, List.length_append, valuesSec, List.length_flatten, hblens]
      have h32 : (mkDabaHeader version perm.length).to_bytes.length = 32 := by
        simp [DabaHeader.to_bytes, mkDabaHeader, dabaMagic, length_toLE]
      rw [h32]
    show (offsOf perm values).getD (keys.length - 1) 0 +
        (slotOf perm values (keys.length - 1)).length =
      (mkDataF version perm values).length - 32
    rw [hgetD, hdlen, ← hslot]
    omega

/-- Witness for C1: a single key `"aaaaaaaaaaaaaaaa"` with value `"hi"`
under the constant-0 perfect hash. -/
theorem c1_round_trip_witness :
    ∃ dataF idxF db,
      write_database exMphf1 [] [exK0] [[104, 105]] 1 = some (dataF, idxF) ∧
      openDb exDeser1 dataF idxF = .ok db ∧
      ∀ i, i < ([exK0] : List (List Nat)).length →
        db.get (([exK0] : List (List Nat)).getD i []) =
          some (some (([[104, 105]] : List (List Nat)).getD i [])) :=
  c1_round_trip exMphf1 exDeser1 [] [exK0] [[104, 105]] 1 (by decide) (by decide)
    (by decide) (by decide) (by decide) rfl (by decide) (by decide)

/-- Witness for C2: the key `"bbbbbbbbbbbbbbbb"` is absent from the
one-entry build set `{"aaaaaaaaaaaaaaaa"}` and aliases id 0, which the
stored key owns. -/
theorem c2_absent_witness :
    ∃ dataF idxF db,
      write_database exMphf1 [] [exK0] [[104, 105]] 1 = some (dataF, idxF) ∧
      openDb exDeser1 dataF idxF = .ok db ∧
      db.get exK1 = some none :=
  c2_absent exMphf1 exDeser1 [] [exK0] [[104, 105]] 1 exK1 (by decide) (by decide)
    (by decide) rfl (by decide) (by decide) (by decide) (by decide)

/-- Witness for C8 on the concrete two-entry build. -/
theorem c8_offsets_invariants_witness :
    ∃ perm dataF idxF db,
      fillPerm exMphf ([exK0, exK1] : List (List Nat)).length [exK0, exK1]
        0 (List.replicate ([exK0, exK1] : List (List Nat)).length 0) = some perm ∧
      write_database exMphf [] [exK0, exK1] [exVal0, exVal1] 1 = some (dataF, idxF) ∧
      openDb exDeser dataF idxF = .ok db ∧
      db.offsets.getD 0 0 = 0 ∧
      db.offsets.Pairwise (· ≤ ·) ∧
      db.offsets.getD (([exK0, exK1] : List (List Nat)).length - 1) 0 +
        (slotOf perm [exVal0, exVal1] (([exK0, exK1] : List (List Nat)).length - 1)).length =
        dataF.length - db.header.values_start :=
  c8_offsets_invariants exMphf exDeser [] [exK0, exK1] [exVal0, exVal1] 1 (by decide)
    (by decide) (by decide) rfl (by decide) (by decide) (by decide)
